import Mathlib

/-!
Verification of the ironchat server against its specification.

The Rust sources are shallowly embedded:
* Rust `String`/`&str` values are modelled as `RStr := List Char`
  (a list of Unicode scalar values); byte positions are recovered through
  `Char.utf8Size`, so byte-indexed operations such as `String::truncate`
  are modelled exactly, including their panics on non-boundary indices.
* Character-level ASCII case mapping (`to_lowercase`, `to_uppercase`,
  `eq_ignore_ascii_case`) is modelled with `Char.toLower`/`Char.toUpper`;
  this is exact on ASCII, which is the alphabet of every command token.
* `HashMap`/`BTreeMap` values are association lists, `HashSet` is `Finset`.
* Machine integers (`u32`, `u64`, `usize`) are modelled as `Nat`;
  monotone `Instant`s are `Nat` timestamps and `Duration`s are `Nat`.
* A Rust computation that can panic returns `RRes α`, where `RRes.crash`
  marks a panic and `RRes.ret a` a normal return of `a`.
-/

/-- Rust string model: a list of Unicode scalar values. -/
abbrev RStr := List Char

/-- Result of a Rust computation that can panic. -/
inductive RRes (α : Type) where
  | crash : RRes α
  | ret : α → RRes α
deriving DecidableEq, Repr

/-- Unicode `White_Space`, as used by Rust `char::is_whitespace` / `str::trim`. -/
def isWS (c : Char) : Bool :=
  c = ' ' || c = '\t' || c = '\n' || c = '\r' ||
  c = '\x0b' || c = '\x0c' || c = '\u0085' || c = '\u00A0' ||
  c = '\u1680' ||
  (0x2000 ≤ c.toNat && c.toNat ≤ 0x200a) ||
  c = '\u2028' || c = '\u2029' || c = '\u202F' || c = '\u205F' ||
  c = '\u3000'

/-- Models Rust `str::to_lowercase` (exact on ASCII input). -/
def lowerStr (s : RStr) : RStr := s.map Char.toLower

/-- Models Rust `str::to_uppercase` (exact on ASCII input). -/
def upperStr (s : RStr) : RStr := s.map Char.toUpper

/-- Models Rust `str::eq_ignore_ascii_case`. -/
def eqIgnoreAsciiCase (s t : RStr) : Bool := lowerStr s = lowerStr t

/-- Byte length of a string under UTF-8. -/
def utf8Len (s : RStr) : Nat := (s.map Char.utf8Size).sum

/-- Models `str::trim_end_matches(['\r', '\n'])`. -/
def stripCRLF (s : RStr) : RStr := s.rdropWhile (fun c => c = '\r' || c = '\n')

/-- Models Rust `str::trim` (drop Unicode whitespace from both ends). -/
def trimStr (s : RStr) : RStr := (s.dropWhile isWS).rdropWhile isWS

/-- Models `String::truncate s n` for `n < s.len()`: keeps the first `n`
bytes, or panics (`none`) when byte index `n` is not a char boundary. -/
def truncAt : RStr → Nat → Option RStr
  | _, 0 => some []
  | [], _ + 1 => some []
  | c :: rest, n + 1 =>
    if c.utf8Size ≤ n + 1 then
      (truncAt rest (n + 1 - c.utf8Size)).map (fun t => c :: t)
    else
      none

/-- The longest prefix of `s` of byte length at most `n` (the total
truncation the spec describes: cut at the last char boundary `≤ n`). -/
def takeBytes : RStr → Nat → RStr
  | [], _ => []
  | c :: rest, n =>
    if c.utf8Size ≤ n then c :: takeBytes rest (n - c.utf8Size) else []

/-- `MAX_LINE` from `protocol.rs`. -/
def MAX_LINE : Nat := 1024

/-- `MAX_NICK` from `protocol.rs`. -/
def MAX_NICK : Nat := 32

/-- Models `protocol::clean_line`.  `RRes.crash` records the panic of
`String::truncate` when byte 1024 is not a char boundary; `ret none`
models a `None` return (empty result). -/
def cleanLine (line : RStr) : RRes (Option RStr) :=
  let s := stripCRLF line
  match (if utf8Len s > MAX_LINE then truncAt s MAX_LINE else some s) with
  | none => RRes.crash
  | some t =>
    let r := trimStr t
    if r = [] then RRes.ret none else RRes.ret (some r)

/-- Models `splitn(2, ' ')`: the part before the first space, and
(when a space exists) everything after it. -/
def splitFirst : RStr → RStr × Option RStr
  | [] => ([], none)
  | c :: rest =>
    if c = ' ' then ([], some rest)
    else
      let p := splitFirst rest
      (c :: p.1, p.2)

/-- `ClientMsg` from `protocol.rs`. -/
inductive ClientMsg where
  | nick (nick : RStr)
  | say (text : RStr)
  | who
  | quit
  | prompt (id : RStr) (answer : RStr)
deriving DecidableEq, Repr

/-- `ServerMsg` from `protocol.rs`. -/
inductive ServerMsg where
  | sys (text : RStr)
  | msg (nick : RStr) (text : RStr)
  | hist (nick : RStr) (text : RStr)
  | who (count : Nat) (nicks : List RStr)
  | prompt (id : RStr) (text : RStr)
deriving DecidableEq, Repr

/-- Models `protocol::parse_client_line` (the session always feeds it an
already-cleaned line, but the function itself re-cleans its input). -/
def parseClientLine (line : RStr) : RRes (Except RStr ClientMsg) :=
  match cleanLine line with
  | RRes.crash => RRes.crash
  | RRes.ret none => RRes.ret (Except.error "empty line".data)
  | RRes.ret (some clean) =>
    let p := splitFirst clean
    let cmd := p.1
    let rest := trimStr (p.2.getD [])
    RRes.ret (
      if upperStr cmd = "NICK".data then
        if rest = [] then Except.error "missing nickname".data
        else Except.ok (ClientMsg.nick rest)
      else if upperStr cmd = "SAY".data then
        if rest = [] then Except.error "empty message".data
        else Except.ok (ClientMsg.say rest)
      else if upperStr cmd = "WHO".data then Except.ok ClientMsg.who
      else if upperStr cmd = "QUIT".data then Except.ok ClientMsg.quit
      else if upperStr cmd = "PROMPT".data then
        let q := splitFirst rest
        let id := trimStr q.1
        let answer := trimStr (q.2.getD [])
        if id = [] ∨ answer = [] then Except.error "invalid prompt reply".data
        else Except.ok (ClientMsg.prompt id answer)
      else Except.error "unknown command".data)

/-- Little-endian decimal digits of a `Nat`, with explicit fuel (any
`fuel ≥ n` gives the digits); structural recursion on the fuel keeps the
definition kernel-reducible. -/
def natDigitsLEFuel : Nat → Nat → List Char
  | 0, n => [Nat.digitChar n]
  | fuel + 1, n =>
    if n < 10 then [Nat.digitChar n]
    else Nat.digitChar (n % 10) :: natDigitsLEFuel fuel (n / 10)

/-- Little-endian decimal digits of a `Nat` (`Rust` `{}` rendering helper). -/
def natDigitsLE (n : Nat) : List Char := natDigitsLEFuel n n

/-- Decimal rendering of a `Nat`, as Rust `format!("{}", n)` produces. -/
def natToStr (n : Nat) : RStr := (natDigitsLE n).reverse

/-- `Vec::join(" ")`. -/
def joinSp : List RStr → RStr
  | [] => []
  | [w] => w
  | w :: ws => w ++ ' ' :: joinSp ws

/-- Models `protocol::format_server_msg`. -/
def formatServerMsg : ServerMsg → RStr
  | ServerMsg.sys text => "SYS ".data ++ text
  | ServerMsg.msg nick text => "MSG ".data ++ nick ++ ' ' :: text
  | ServerMsg.hist nick text => "HIST ".data ++ nick ++ ' ' :: text
  | ServerMsg.who count nicks => "WHO ".data ++ natToStr count ++ ' ' :: joinSp nicks
  | ServerMsg.prompt id text => "PROMPT ".data ++ id ++ ' ' :: text

/-- Digits-only decimal value of a string, `none` when empty or non-digit. -/
def digitsVal (s : RStr) : Option Nat :=
  if s ≠ [] ∧ s.all Char.isDigit then
    some (s.foldl (fun a c => a * 10 + (c.toNat - 48)) 0)
  else none

/-- Models `str::parse::<usize>` (an optional leading `+`, then digits). -/
def rustParseUsize (s : RStr) : Option Nat :=
  if s.head? = some '+' then digitsVal s.tail else digitsVal s

/-- Models Rust `str::split_whitespace` (helper, accumulating a word). -/
def splitWsAux (cur : RStr) : RStr → List RStr
  | [] => if cur = [] then [] else [cur.reverse]
  | c :: rest =>
    if isWS c then
      if cur = [] then splitWsAux [] rest else cur.reverse :: splitWsAux [] rest
    else splitWsAux (c :: cur) rest

/-- Models Rust `str::split_whitespace`. -/
def splitWs (s : RStr) : List RStr := splitWsAux [] s

/-- Models `protocol::parse_server_line`. -/
def parseServerLine (line : RStr) : RRes (Except RStr ServerMsg) :=
  match cleanLine line with
  | RRes.crash => RRes.crash
  | RRes.ret none => RRes.ret (Except.error "empty line".data)
  | RRes.ret (some clean) =>
    let p := splitFirst clean
    let cmd := p.1
    let rest := p.2.getD []
    RRes.ret (
      if upperStr cmd = "SYS".data then Except.ok (ServerMsg.sys rest)
      else if upperStr cmd = "MSG".data then
        let q := splitFirst rest
        let nick := q.1
        let text := q.2.getD []
        if nick = [] ∨ text = [] then Except.error "invalid MSG".data
        else Except.ok (ServerMsg.msg nick text)
      else if upperStr cmd = "HIST".data then
        let q := splitFirst rest
        let nick := q.1
        let text := q.2.getD []
        if nick = [] ∨ text = [] then Except.error "invalid HIST".data
        else Except.ok (ServerMsg.hist nick text)
      else if upperStr cmd = "WHO".data then
        let q := splitFirst rest
        let count := (rustParseUsize q.1).getD 0
        let nicks := splitWs (q.2.getD [])
        Except.ok (ServerMsg.who count nicks)
      else if upperStr cmd = "PROMPT".data then
        let q := splitFirst rest
        let id := q.1
        let text := q.2.getD []
        if id = [] ∨ text = [] then Except.error "invalid PROMPT".data
        else Except.ok (ServerMsg.prompt id text)
      else Except.error "unknown command".data)

/-! ## Association-list model of `HashMap` / `BTreeMap` -/

/-- Map lookup (`get`). -/
def alookup {α β : Type} [DecidableEq α] (k : α) (l : List (α × β)) : Option β :=
  (l.find? (fun p => decide (p.1 = k))).map Prod.snd

/-- Map removal (`remove`). -/
def aremove {α β : Type} [DecidableEq α] (k : α) (l : List (α × β)) : List (α × β) :=
  l.filter (fun p => decide (p.1 ≠ k))

/-- Map insertion (`insert`, replacing any existing binding). -/
def ainsert {α β : Type} [DecidableEq α] (k : α) (v : β) (l : List (α × β)) : List (α × β) :=
  (k, v) :: aremove k l

/-! ## `chat-core/src/rate.rs` -/

/-- `RateWindow` from `rate.rs` (the window `Duration` as a `Nat`). -/
structure RateWindow where
  limit : Nat
  window : Nat
deriving DecidableEq, Repr

/-- `RateLimiter` from `rate.rs` (`Instant` as a `Nat` timestamp). -/
structure RateLimiter where
  window : RateWindow
  count : Nat
  start : Nat
deriving DecidableEq, Repr

/-- `RateLimiter::new` (construction records the current instant). -/
def RateLimiter.new (limit window now : Nat) : RateLimiter :=
  { window := { limit := limit, window := window }, count := 0, start := now }

/-- `RateLimiter::check`, with the current instant passed explicitly;
returns the updated limiter and whether the event is admitted. -/
def RateLimiter.check (rl : RateLimiter) (now : Nat) : RateLimiter × Bool :=
  let rl1 := if now - rl.start ≥ rl.window.window then
               { rl with start := now, count := 0 } else rl
  let rl2 := { rl1 with count := rl1.count + 1 }
  (rl2, decide (rl2.count ≤ rl2.window.limit))

/-- A sequence of `check` calls at the given instants; the list of verdicts. -/
def checkRun (rl : RateLimiter) : List Nat → List Bool
  | [] => []
  | t :: ts =>
    let r := rl.check t
    r.2 :: checkRun r.1 ts

/-! ## `chatd/src/state.rs` -/

/-- `IpRate` from `state.rs`. -/
structure IpRate where
  limiter : RateLimiter
  warned : Bool
deriving DecidableEq, Repr

/-- `IpRate::new` (window fixed at one second). -/
def IpRate.new (limit now : Nat) : IpRate :=
  { limiter := RateLimiter.new limit 1 now, warned := false }

/-- `IpRate::check`: runs the limiter and clears `warned` on success. -/
def IpRate.check (r : IpRate) (now : Nat) : IpRate × Bool :=
  let c := r.limiter.check now
  ({ limiter := c.1, warned := if c.2 then false else r.warned }, c.2)

/-- `ClientHandle` from `state.rs`; the outbound channel `tx` is not part
of the state the claims are about and is omitted.  IPs are `Nat` keys. -/
structure ClientHandle where
  nick : RStr
  ip : Nat
deriving DecidableEq, Repr

/-- `HubState` from `state.rs`: `clients`/`conn_rates`/`ip_rates` are
association lists, `nicks` (a `HashSet<String>`) is a `Finset`. -/
structure HubState where
  clients : List (Nat × ClientHandle)
  nicks : Finset RStr
  nextId : Nat
  ipRates : List (Nat × IpRate)
  connRates : List (Nat × (RateLimiter × Bool))
  connLimit : Nat
  ipLimit : Nat

/-- `HubState::new`. -/
def HubState.new (connLimit ipLimit : Nat) : HubState :=
  { clients := [], nicks := ∅, nextId := 1, ipRates := [], connRates := [],
    connLimit := connLimit, ipLimit := ipLimit }

/-- `HubState::add_client` (the fresh limiters record the instant `now`). -/
def HubState.addClient (st : HubState) (nick : RStr) (ip : Nat) (now : Nat) :
    HubState × Nat :=
  let id := st.nextId
  ({ st with
      nextId := id + 1,
      nicks := insert (lowerStr nick) st.nicks,
      clients := ainsert id { nick := nick, ip := ip } st.clients,
      connRates := ainsert id (RateLimiter.new st.connLimit 1 now, false) st.connRates,
      ipRates := if (alookup ip st.ipRates).isSome then st.ipRates
                 else ainsert ip (IpRate.new st.ipLimit now) st.ipRates },
   id)

/-- `HubState::remove_client`. -/
def HubState.removeClient (st : HubState) (id : Nat) : HubState × Option ClientHandle :=
  match alookup id st.clients with
  | some h =>
    ({ st with
        clients := aremove id st.clients,
        nicks := st.nicks.erase (lowerStr h.nick),
        connRates := aremove id st.connRates },
     some h)
  | none => (st, none)

/-- `handle.nick = new_nick.clone()` as a function on handles. -/
def setNick (nk : RStr) (h : ClientHandle) : ClientHandle := { h with nick := nk }

/-- `HubState::rename`. -/
def HubState.rename (st : HubState) (id : Nat) (newNick : RStr) :
    HubState × Except RStr Unit :=
  let norm := lowerStr newNick
  match alookup id st.clients with
  | some h =>
    if eqIgnoreAsciiCase h.nick newNick then (st, Except.ok ())
    else if norm ∈ st.nicks then (st, Except.error "nickname already taken".data)
    else
      ({ st with
          nicks := insert norm (st.nicks.erase (lowerStr h.nick)),
          clients := st.clients.map
            (fun p => if p.1 = id then (p.1, setNick newNick p.2) else p) },
       Except.ok ())
  | none =>
    if norm ∈ st.nicks then (st, Except.error "nickname already taken".data)
    else (st, Except.error "unknown client".data)

/-- Hub states reachable from `HubState::new` by the three mutators; as in
the claim, `add_client` is only applied to a nick whose lowercase form is
free (the session guarantees this at registration). -/
inductive Reachable : HubState → Prop where
  | init : ∀ connLimit ipLimit, Reachable (HubState.new connLimit ipLimit)
  | add : ∀ st nick ip now, Reachable st → lowerStr nick ∉ st.nicks →
      Reachable (st.addClient nick ip now).1
  | remove : ∀ st id, Reachable st → Reachable (st.removeClient id).1
  | ren : ∀ st id nk, Reachable st → Reachable (st.rename id nk).1

/-- The lowercase nicks of the live clients, in registry order. -/
def clientLowerNicks (st : HubState) : List RStr :=
  st.clients.map (fun p => lowerStr p.2.nick)

/-! ## The rate-limit block of `chatd/src/main.rs::handle_client`
(lines 322–352), as a step function over one session's rate state. -/

/-- The rate state one session sees: its connection limiter with its
`warned` flag (the `conn_rates` entry) and its IP's `IpRate`. -/
structure SessState where
  conn : RateLimiter
  connWarned : Bool
  ip : IpRate
deriving DecidableEq, Repr

/-- One pass through the rate-limit block of the session loop at instant
`now`: runs `conn_rate_ok` and `ip_rate_ok`, applies the warn/disconnect
policy, and returns (new state, sent `SYS rate limit exceeded`?,
disconnected?). -/
def rateStep (st : SessState) (now : Nat) : SessState × Bool × Bool :=
  let c := st.conn.check now
  let connOk := c.2
  let st1 : SessState :=
    { conn := c.1,
      connWarned := if connOk then false else st.connWarned,
      ip := (st.ip.check now).1 }
  let ipOk := (st.ip.check now).2
  if !connOk || !ipOk then
    let d1 := !connOk && st1.connWarned
    let st2 := if !connOk && !st1.connWarned then { st1 with connWarned := true } else st1
    let d2 := !ipOk && st2.ip.warned
    let st3 := if !ipOk && !st2.ip.warned
               then { st2 with ip := { st2.ip with warned := true } } else st2
    if d1 || d2 then (st3, false, true) else (st3, true, false)
  else (st1, false, false)

/-- The session loop's successive rate-block passes at the given instants,
stopping after a disconnecting pass (the loop `break`s).  Each element
records the state at entry to the pass and the instant of the pass. -/
def traceFrom (st : SessState) : List Nat → List (SessState × Nat)
  | [] => []
  | t :: ts =>
    (st, t) :: (if (rateStep st t).2.2 then [] else traceFrom (rateStep st t).1 ts)

/-- Did the pass send `SYS rate limit exceeded`? -/
def stepSys (p : SessState × Nat) : Bool := (rateStep p.1 p.2).2.1

/-- Did the pass disconnect the session? -/
def stepDis (p : SessState × Nat) : Bool := (rateStep p.1 p.2).2.2

/-- Verdict of the selected limiter's check in the pass
(`true` selects the connection limiter, `false` the IP limiter). -/
def okAt (which : Bool) (p : SessState × Nat) : Bool :=
  if which then (p.1.conn.check p.2).2 else (p.1.ip.limiter.check p.2).2

/-- The selected limiter's warned flag in a state. -/
def warnedOf (which : Bool) (s : SessState) : Bool :=
  if which then s.connWarned else s.ip.warned

/-! ## `chat-core/src/identities.rs` -/

/-- `IdentityRecord` from `identities.rs`. -/
structure IdentityRecord where
  nick : RStr
  updated : Nat
deriving DecidableEq, Repr

/-- One step of `save_inner`'s first loop: fold the next `(ip, rec)` pair
into the `nick_index` keyed by lowercase nick; an existing entry with
`updated` at least as large wins, otherwise it is replaced. -/
def nickIndexStep (acc : List (RStr × (RStr × IdentityRecord)))
    (e : RStr × IdentityRecord) : List (RStr × (RStr × IdentityRecord)) :=
  let key := lowerStr e.2.nick
  match alookup key acc with
  | some ex => if ex.2.updated ≥ e.2.updated then acc else ainsert key e acc
  | none => ainsert key e acc

/-- `save_inner`'s `nick_index` built from the in-memory IP→record map
(iterated in map order). -/
def buildNickIndex (l : List (RStr × IdentityRecord)) :
    List (RStr × (RStr × IdentityRecord)) :=
  l.foldl nickIndexStep []

/-- The `(ip, rec)` pairs of the `cleaned` map that `save_inner` persists
(serialisation and the atomic file write are outside the model). -/
def savedRecords (l : List (RStr × IdentityRecord)) : List (RStr × IdentityRecord) :=
  (buildNickIndex l).map Prod.snd

/-! ## `chat-core/src/allowlist.rs` -/

/-- `PendingEntry` from `allowlist.rs`. -/
structure PendingEntry where
  first_seen : Nat
  last_seen : Nat
  attempts : Nat
deriving DecidableEq, Repr

/-- The `and_modify` closure of `note_attempt`: refresh `last_seen`,
increment `attempts`. -/
def bumpPending (now : Nat) (pe : PendingEntry) : PendingEntry :=
  { pe with last_seen := now, attempts := pe.attempts + 1 }

/-- `PendingList::note_attempt` (keys are the IPs' string forms). -/
def noteAttempt (pending : List (RStr × PendingEntry)) (ipKey : RStr) (now : Nat) :
    List (RStr × PendingEntry) :=
  if (alookup ipKey pending).isSome then
    pending.map (fun p => if p.1 = ipKey then (p.1, bumpPending now p.2) else p)
  else (ipKey, { first_seen := now, last_seen := now, attempts := 1 }) :: pending

/-- `AllowlistFiles::check_or_note`.  CIDR evaluation (`AllowedList::allows`)
is abstracted as the membership function `allows`; loading and saving the
pending file become explicit state passing. -/
def checkOrNote (allows : RStr → Bool) (pending : List (RStr × PendingEntry))
    (ipKey : RStr) (now : Nat) : Bool × List (RStr × PendingEntry) :=
  if allows ipKey then (true, pending)
  else (false, noteAttempt pending ipKey now)

/-! ## Association-list lemmas -/

theorem alookup_cons {α β : Type} [DecidableEq α] (k : α) (p : α × β)
    (t : List (α × β)) :
    alookup k (p :: t) = if p.1 = k then some p.2 else alookup k t := by
  by_cases hp : p.1 = k <;> simp [alookup, List.find?_cons, hp]

theorem aremove_cons {α β : Type} [DecidableEq α] (k : α) (p : α × β)
    (t : List (α × β)) :
    aremove k (p :: t) = if p.1 = k then aremove k t else p :: aremove k t := by
  by_cases hp : p.1 = k <;> simp [aremove, List.filter_cons, hp]

theorem alookup_mem {α β : Type} [DecidableEq α] {k : α} {v : β} :
    ∀ {l : List (α × β)}, alookup k l = some v → (k, v) ∈ l := by
  intro l
  induction l with
  | nil => intro h; simp [alookup] at h
  | cons p t ih =>
    intro h
    rw [alookup_cons] at h
    by_cases hp : p.1 = k
    · rw [if_pos hp] at h
      have hv : p.2 = v := Option.some_inj.mp h
      have hpkv : p = (k, v) := Prod.ext_iff.mpr ⟨hp, hv⟩
      rw [hpkv]
      exact List.mem_cons_self _ _
    · rw [if_neg hp] at h
      exact List.mem_cons_of_mem _ (ih h)

theorem alookup_none {α β : Type} [DecidableEq α] {k : α} :
    ∀ {l : List (α × β)}, alookup k l = none → ∀ p ∈ l, p.1 ≠ k := by
  intro l
  induction l with
  | nil => intro _ p hp; simp at hp
  | cons q t ih =>
    intro h p hp
    rw [alookup_cons] at h
    by_cases hq : q.1 = k
    · rw [if_pos hq] at h; simp at h
    · rw [if_neg hq] at h
      rcases List.mem_cons.mp hp with hp | hp
      · subst hp; exact hq
      · exact ih h p hp

theorem mem_aremove_iff {α β : Type} [DecidableEq α] {k : α} {p : α × β}
    {l : List (α × β)} : p ∈ aremove k l ↔ p ∈ l ∧ p.1 ≠ k := by
  simp [aremove, List.mem_filter]

theorem aremove_eq_self {α β : Type} [DecidableEq α] {k : α} {l : List (α × β)}
    (h : ∀ p ∈ l, p.1 ≠ k) : aremove k l = l := by
  rw [aremove, List.filter_eq_self]
  intro p hp
  simpa using h p hp

theorem keys_aremove_sublist {α β : Type} [DecidableEq α] (k : α) (l : List (α × β)) :
    ((aremove k l).map Prod.fst).Sublist (l.map Prod.fst) :=
  (List.filter_sublist l).map Prod.fst

theorem alookup_aremove_ne {α β : Type} [DecidableEq α] {j k : α} (h : j ≠ k) :
    ∀ (l : List (α × β)), alookup j (aremove k l) = alookup j l := by
  intro l
  induction l with
  | nil => simp [aremove]
  | cons p t ih =>
    rw [aremove_cons, alookup_cons]
    by_cases hp : p.1 = k
    · rw [if_pos hp, ih]
      have hpj : ¬(p.1 = j) := by rw [hp]; exact fun hkj => h hkj.symm
      rw [if_neg hpj]
    · rw [if_neg hp, alookup_cons, ih]

theorem alookup_ainsert_self {α β : Type} [DecidableEq α] (k : α) (v : β)
    (l : List (α × β)) : alookup k (ainsert k v l) = some v := by
  simp [ainsert, alookup_cons]

theorem alookup_ainsert_ne {α β : Type} [DecidableEq α] {j k : α} (v : β)
    (l : List (α × β)) (h : j ≠ k) : alookup j (ainsert k v l) = alookup j l := by
  rw [ainsert, alookup_cons]
  have : ¬(k = j) := fun hkj => h hkj.symm
  simp only [this, if_false]
  exact alookup_aremove_ne h l

theorem alookup_map_update {α β : Type} [DecidableEq α] (k : α) (g : β → β) :
    ∀ (l : List (α × β)),
      alookup k (l.map (fun p => if p.1 = k then (p.1, g p.2) else p)) =
        (alookup k l).map g := by
  intro l
  induction l with
  | nil => simp [alookup]
  | cons p t ih =>
    by_cases hp : p.1 = k
    · simp [alookup_cons, hp]
    · simp only [List.map_cons, if_neg hp, alookup_cons, hp, if_false, ih]

theorem alookup_map_update_ne {α β : Type} [DecidableEq α] {j k : α} (g : β → β)
    (h : j ≠ k) :
    ∀ (l : List (α × β)),
      alookup j (l.map (fun p => if p.1 = k then (p.1, g p.2) else p)) =
        alookup j l := by
  intro l
  induction l with
  | nil => simp
  | cons p t ih =>
    by_cases hp : p.1 = k
    · have hpj : ¬(p.1 = j) := by rw [hp]; exact fun hkj => h hkj.symm
      simp only [List.map_cons, if_pos hp, alookup_cons, hpj, if_false, ih]
    · simp only [List.map_cons, if_neg hp, alookup_cons, ih]

/-! ## C3: the fixed-window rate limiter -/

theorem checkRun_within (L W t0 : Nat) :
    ∀ (ts : List Nat) (c : Nat), 0 < W → (∀ t ∈ ts, t < t0 + W) →
      checkRun ⟨⟨L, W⟩, c, t0⟩ ts =
        (List.range ts.length).map (fun i => decide (c + i < L)) := by
  intro ts
  induction ts with
  | nil => intro c _ _; rfl
  | cons t ts ih =>
    intro c hW hts
    have ht : t < t0 + W := hts t (List.mem_cons_self _ _)
    have hno : ¬(t - t0 ≥ W) := by omega
    have hchk : RateLimiter.check ⟨⟨L, W⟩, c, t0⟩ t =
        (⟨⟨L, W⟩, c + 1, t0⟩, decide (c + 1 ≤ L)) := by
      simp [RateLimiter.check, hno]
    rw [checkRun, hchk]
    simp only
    rw [ih (c + 1) hW (fun u hu => hts u (List.mem_cons_of_mem _ hu))]
    rw [List.length_cons, List.range_succ_eq_map, List.map_cons, List.map_map]
    rw [List.cons.injEq]
    refine ⟨?_, ?_⟩
    · rw [decide_eq_decide]
      omega
    · apply List.map_congr_left
      intro i _
      simp only [Function.comp_apply]
      rw [decide_eq_decide]
      omega

/-- C3: `RateLimiter::check` resets the window when `now - start ≥ window`
and then admits iff the incremented count is within the limit; a fresh
limiter admits exactly the first `limit` checks inside one window (the
`i`-th check, 0-based, is admitted iff `i < limit`) and rejects the rest;
and once the window has advanced, a check is admitted again. -/
theorem rate_limiter_spec :
    (∀ (r : RateLimiter) (now : Nat),
      r.check now =
        (if now - r.start ≥ r.window.window
         then ({ window := r.window, count := 1, start := now }, decide (1 ≤ r.window.limit))
         else ({ r with count := r.count + 1 }, decide (r.count + 1 ≤ r.window.limit)))) ∧
    (∀ (L W t0 : Nat) (ts : List Nat), 0 < W → (∀ t ∈ ts, t < t0 + W) →
      checkRun (RateLimiter.new L W t0) ts =
        (List.range ts.length).map (fun i => decide (i < L))) ∧
    (∀ (r : RateLimiter) (now : Nat), 1 ≤ r.window.limit →
      now - r.start ≥ r.window.window → (r.check now).2 = true) := by
  refine ⟨?_, ?_, ?_⟩
  · intro r now
    by_cases h : now - r.start ≥ r.window.window <;>
      simp [RateLimiter.check, h]
  · intro L W t0 ts hW hts
    have h := checkRun_within L W t0 ts 0 hW hts
    simpa [RateLimiter.new] using h
  · intro r now hL h
    simp [RateLimiter.check, h, hL]

/-- C3 witness: limit 2 in a 5-tick window starting at 10: the checks at
10, 11, 12 yield admit, admit, reject, and a later check at 20 admits. -/
theorem rate_limiter_spec_witness :
    checkRun (RateLimiter.new 2 5 10) [10, 11, 12] = [true, true, false] ∧
    ((RateLimiter.new 2 5 10).check 20).2 = true := by
  constructor
  · have h := rate_limiter_spec.2.1 2 5 10 [10, 11, 12] (by decide)
      (by intro t ht; fin_cases ht <;> decide)
    rw [h]
    decide
  · exact rate_limiter_spec.2.2 (RateLimiter.new 2 5 10) 20 (by decide) (by decide)

/-! ## C9: admission denial updates the pending list -/

/-- C9: for a denied IP, `check_or_note` returns `false` and upserts the
pending entry: first denial creates it with `first_seen = last_seen = now`
and `attempts = 1`; later denials bump `attempts`, refresh `last_seen` and
keep `first_seen`; other entries are untouched.  For an allowed IP it
returns `true` and leaves the pending list unchanged. -/
theorem check_or_note_spec (allows : RStr → Bool)
    (pending : List (RStr × PendingEntry)) (ip : RStr) (now : Nat) :
    (allows ip = false →
      (checkOrNote allows pending ip now).1 = false ∧
      (alookup ip pending = none →
        alookup ip (checkOrNote allows pending ip now).2 =
          some { first_seen := now, last_seen := now, attempts := 1 }) ∧
      (∀ e, alookup ip pending = some e →
        alookup ip (checkOrNote allows pending ip now).2 =
          some { first_seen := e.first_seen, last_seen := now,
                 attempts := e.attempts + 1 }) ∧
      (∀ j, j ≠ ip →
        alookup j (checkOrNote allows pending ip now).2 = alookup j pending)) ∧
    (allows ip = true → checkOrNote allows pending ip now = (true, pending)) := by
  constructor
  · intro hd
    have hco : checkOrNote allows pending ip now = (false, noteAttempt pending ip now) := by
      simp [checkOrNote, hd]
    rw [hco]
    refine ⟨rfl, ?_, ?_, ?_⟩
    · intro hnone
      show alookup ip (noteAttempt pending ip now) = _
      simp only [noteAttempt, hnone, Option.isSome_none, Bool.false_eq_true, if_false]
      rw [alookup_cons]
      simp
    · intro e he
      show alookup ip (noteAttempt pending ip now) = _
      simp only [noteAttempt, he, Option.isSome_some, if_true]
      rw [alookup_map_update ip (bumpPending now), he]
      rfl
    · intro j hj
      show alookup j (noteAttempt pending ip now) = _
      cases hpe : alookup ip pending with
      | none =>
        simp only [noteAttempt, hpe, Option.isSome_none, Bool.false_eq_true, if_false]
        rw [alookup_cons]
        simp [Ne.symm hj]
      | some e =>
        simp only [noteAttempt, hpe, Option.isSome_some, if_true]
        exact alookup_map_update_ne (bumpPending now) hj pending
  · intro ha
    simp [checkOrNote, ha]

/-- C9 witness: with an allowlist containing only `9.9.9.9`, a denial from
`1.2.3.4` at time 5 creates its entry, a second denial at time 8 bumps it,
and a check from the allowed IP leaves the list unchanged. -/
theorem check_or_note_spec_witness :
    (checkOrNote (fun ip => ip = "9.9.9.9".data) [] "1.2.3.4".data 5).1 = false ∧
    alookup "1.2.3.4".data
      (checkOrNote (fun ip => ip = "9.9.9.9".data) [] "1.2.3.4".data 5).2 =
      some { first_seen := 5, last_seen := 5, attempts := 1 } ∧
    alookup "1.2.3.4".data
      (checkOrNote (fun ip => ip = "9.9.9.9".data)
        [("1.2.3.4".data, { first_seen := 5, last_seen := 5, attempts := 1 })]
        "1.2.3.4".data 8).2 =
      some { first_seen := 5, last_seen := 8, attempts := 2 } ∧
    checkOrNote (fun ip => ip = "9.9.9.9".data)
        [("1.2.3.4".data, { first_seen := 5, last_seen := 5, attempts := 1 })]
        "9.9.9.9".data 8 =
      (true, [("1.2.3.4".data, { first_seen := 5, last_seen := 5, attempts := 1 })]) := by
  refine ⟨?_, ?_, ?_, ?_⟩
  · exact ((check_or_note_spec (fun ip => ip = "9.9.9.9".data) [] "1.2.3.4".data 5).1
      (by decide)).1
  · exact (((check_or_note_spec (fun ip => ip = "9.9.9.9".data) [] "1.2.3.4".data 5).1
      (by decide)).2.1 (by decide))
  · exact (((check_or_note_spec (fun ip => ip = "9.9.9.9".data)
      [("1.2.3.4".data, { first_seen := 5, last_seen := 5, attempts := 1 })]
      "1.2.3.4".data 8).1 (by decide)).2.2.1
      { first_seen := 5, last_seen := 5, attempts := 1 } (by decide))
  · exact ((check_or_note_spec (fun ip => ip = "9.9.9.9".data)
      [("1.2.3.4".data, { first_seen := 5, last_seen := 5, attempts := 1 })]
      "9.9.9.9".data 8).2 (by decide))

/-! ## C2: `HubState::rename` behaviour -/

/-- C2: `rename(id, new)`: a case-insensitive match with the current nick
is a no-op success; otherwise a lowercase-new already in `nicks` is the
conflict error; otherwise a known id swaps the lowercase nicks and updates
the handle; an unknown id yields an error. -/
theorem rename_spec (st : HubState) (id : Nat) (new : RStr) :
    (∀ h, alookup id st.clients = some h → eqIgnoreAsciiCase h.nick new = true →
      st.rename id new = (st, Except.ok ())) ∧
    ((∀ h, alookup id st.clients = some h → eqIgnoreAsciiCase h.nick new = false) →
      lowerStr new ∈ st.nicks →
      st.rename id new = (st, Except.error "nickname already taken".data)) ∧
    (∀ h, alookup id st.clients = some h → eqIgnoreAsciiCase h.nick new = false →
      lowerStr new ∉ st.nicks →
      (st.rename id new).2 = Except.ok () ∧
      (st.rename id new).1.nicks =
        insert (lowerStr new) (st.nicks.erase (lowerStr h.nick)) ∧
      alookup id (st.rename id new).1.clients = some { nick := new, ip := h.ip } ∧
      (∀ j, j ≠ id →
        alookup j (st.rename id new).1.clients = alookup j st.clients)) ∧
    (alookup id st.clients = none →
      ∃ e, st.rename id new = (st, Except.error e)) := by
  refine ⟨?_, ?_, ?_, ?_⟩
  · intro h hsome heq
    simp [HubState.rename, hsome, heq]
  · intro hne hmem
    cases hcase : alookup id st.clients with
    | none => simp [HubState.rename, hcase, hmem]
    | some h => simp [HubState.rename, hcase, hne h hcase, hmem]
  · intro h hsome heq hnot
    have hr : st.rename id new =
        ({ st with
            nicks := insert (lowerStr new) (st.nicks.erase (lowerStr h.nick)),
            clients := st.clients.map
              (fun p => if p.1 = id then (p.1, setNick new p.2) else p) },
         Except.ok ()) := by
      simp [HubState.rename, hsome, heq, hnot]
    rw [hr]
    refine ⟨rfl, rfl, ?_, ?_⟩
    · show alookup id (st.clients.map
        (fun p => if p.1 = id then (p.1, setNick new p.2) else p)) = _
      rw [alookup_map_update id (setNick new), hsome]
      rfl
    · intro j hj
      show alookup j (st.clients.map
        (fun p => if p.1 = id then (p.1, setNick new p.2) else p)) = _
      exact alookup_map_update_ne (setNick new) hj st.clients
  · intro hnone
    by_cases hm : lowerStr new ∈ st.nicks
    · exact ⟨"nickname already taken".data, by simp [HubState.rename, hnone, hm]⟩
    · exact ⟨"unknown client".data, by simp [HubState.rename, hnone, hm]⟩

/-- C2 witness: in a hub whose only client 1 is `Alice`, renaming 1 to
`ALICE` is a no-op success, renaming 1 to `bob` succeeds and rewrites the
nick index and handle, and renaming the unknown id 2 errors. -/
theorem rename_spec_witness :
    (((HubState.new 5 20).addClient "Alice".data 7 0).1.rename 1 "ALICE".data =
      (((HubState.new 5 20).addClient "Alice".data 7 0).1, Except.ok ())) ∧
    ((((HubState.new 5 20).addClient "Alice".data 7 0).1.rename 1 "bob".data).2 =
      Except.ok ()) ∧
    ((((HubState.new 5 20).addClient "Alice".data 7 0).1.rename 1 "bob".data).1.nicks =
      insert (lowerStr "bob".data)
        ((((HubState.new 5 20).addClient "Alice".data 7 0).1.nicks).erase
          (lowerStr "Alice".data))) ∧
    (alookup 1
        ((((HubState.new 5 20).addClient "Alice".data 7 0).1.rename 1 "bob".data).1.clients) =
      some { nick := "bob".data, ip := 7 }) ∧
    (∃ e, ((HubState.new 5 20).addClient "Alice".data 7 0).1.rename 2 "carol".data =
      (((HubState.new 5 20).addClient "Alice".data 7 0).1, Except.error e)) := by
  have hsome : alookup 1 (((HubState.new 5 20).addClient "Alice".data 7 0).1.clients) =
      some { nick := "Alice".data, ip := 7 } := by decide
  have h3 := (rename_spec (((HubState.new 5 20).addClient "Alice".data 7 0).1)
      1 "bob".data).2.2.1 { nick := "Alice".data, ip := 7 } hsome (by decide) (by decide)
  refine ⟨?_, h3.1, h3.2.1, h3.2.2.1, ?_⟩
  · exact (rename_spec (((HubState.new 5 20).addClient "Alice".data 7 0).1)
      1 "ALICE".data).1 { nick := "Alice".data, ip := 7 } hsome (by decide)
  · exact (rename_spec (((HubState.new 5 20).addClient "Alice".data 7 0).1)
      2 "carol".data).2.2.2 (by decide)

/-! ## C5: identity-file dedup on persistence -/

theorem alookup_of_mem_nodup {α β : Type} [DecidableEq α] {p : α × β} :
    ∀ {l : List (α × β)}, (l.map Prod.fst).Nodup → p ∈ l →
      alookup p.1 l = some p.2 := by
  intro l
  induction l with
  | nil => intro _ hm; simp at hm
  | cons q t ih =>
    intro hnd hm
    rw [List.map_cons, List.nodup_cons] at hnd
    rcases List.mem_cons.mp hm with hm | hm
    · subst hm
      rw [alookup_cons, if_pos rfl]
    · have hne : q.1 ≠ p.1 := by
        intro hq
        exact hnd.1 (hq ▸ List.mem_map_of_mem Prod.fst hm)
      rw [alookup_cons, if_neg hne]
      exact ih hnd.2 hm

theorem keys_ainsert_nodup {α β : Type} [DecidableEq α] (k : α) (v : β)
    {l : List (α × β)} (hnd : (l.map Prod.fst).Nodup) :
    ((ainsert k v l).map Prod.fst).Nodup := by
  rw [ainsert, List.map_cons, List.nodup_cons]
  constructor
  · intro hk
    obtain ⟨p, hp, hpk⟩ := List.mem_map.mp hk
    exact (mem_aremove_iff.mp hp).2 hpk
  · exact (keys_aremove_sublist k l).nodup hnd

theorem nickIndex_fold (l : List (RStr × IdentityRecord)) :
    ∀ acc,
      ((acc.map Prod.fst).Nodup ∧ ∀ q ∈ acc, q.1 = lowerStr q.2.2.nick) →
      (((l.foldl nickIndexStep acc).map Prod.fst).Nodup ∧
        ∀ q ∈ l.foldl nickIndexStep acc, q.1 = lowerStr q.2.2.nick) ∧
      (∀ q ∈ l.foldl nickIndexStep acc, q.2 ∈ l ∨ q ∈ acc) ∧
      (∀ e ∈ l, ∃ q ∈ l.foldl nickIndexStep acc,
        q.1 = lowerStr e.2.nick ∧ e.2.updated ≤ q.2.2.updated) ∧
      (∀ q ∈ acc, ∃ q2 ∈ l.foldl nickIndexStep acc,
        q2.1 = q.1 ∧ q.2.2.updated ≤ q2.2.2.updated) := by
  induction l with
  | nil =>
    intro acc hacc
    refine ⟨hacc, ?_, ?_, ?_⟩
    · intro q hq; exact Or.inr hq
    · intro e he; simp at he
    · intro q hq; exact ⟨q, hq, rfl, le_refl _⟩
  | cons e l ih =>
    intro acc hacc
    have hsplit : (∃ ex, alookup (lowerStr e.2.nick) acc = some ex ∧
          e.2.updated ≤ ex.2.updated ∧ nickIndexStep acc e = acc) ∨
        (nickIndexStep acc e = ainsert (lowerStr e.2.nick) e acc ∧
          ∀ ex, alookup (lowerStr e.2.nick) acc = some ex →
            ex.2.updated < e.2.updated) := by
      cases hlk : alookup (lowerStr e.2.nick) acc with
      | some ex =>
        by_cases hup : ex.2.updated ≥ e.2.updated
        · exact Or.inl ⟨ex, rfl, hup, by simp [nickIndexStep, hlk, hup]⟩
        · refine Or.inr ⟨by simp [nickIndexStep, hlk, hup], ?_⟩
          intro ex2 hex2
          have hee : ex = ex2 := by injection hex2
          rw [← hee]
          omega
      | none =>
        refine Or.inr ⟨by simp [nickIndexStep, hlk], ?_⟩
        intro ex2 hex2
        cases hex2
    have hstep_inv : (((nickIndexStep acc e).map Prod.fst).Nodup ∧
        ∀ q ∈ nickIndexStep acc e, q.1 = lowerStr q.2.2.nick) := by
      rcases hsplit with ⟨ex, _, _, heq⟩ | ⟨heq, _⟩
      · rw [heq]; exact hacc
      · rw [heq]
        refine ⟨keys_ainsert_nodup _ _ hacc.1, ?_⟩
        intro q hq
        rcases List.mem_cons.mp hq with hq | hq
        · rw [hq]
        · exact hacc.2 q (mem_aremove_iff.mp hq).1
    have hstep_mem : ∀ q ∈ nickIndexStep acc e,
        q = (lowerStr e.2.nick, e) ∨ q ∈ acc := by
      rcases hsplit with ⟨ex, _, _, heq⟩ | ⟨heq, _⟩
      · rw [heq]; intro q hq; exact Or.inr hq
      · rw [heq]
        intro q hq
        rcases List.mem_cons.mp hq with hq | hq
        · exact Or.inl hq
        · exact Or.inr (mem_aremove_iff.mp hq).1
    have hstep_cov : ∃ q ∈ nickIndexStep acc e,
        q.1 = lowerStr e.2.nick ∧ e.2.updated ≤ q.2.2.updated := by
      rcases hsplit with ⟨ex, hlk, hup, heq⟩ | ⟨heq, _⟩
      · rw [heq]
        exact ⟨(lowerStr e.2.nick, ex), alookup_mem hlk, rfl, hup⟩
      · rw [heq]
        exact ⟨(lowerStr e.2.nick, e), List.mem_cons_self _ _, rfl, le_refl _⟩
    have hstep_mono : ∀ q ∈ acc, ∃ q2 ∈ nickIndexStep acc e,
        q2.1 = q.1 ∧ q.2.2.updated ≤ q2.2.2.updated := by
      intro q hq
      rcases hsplit with ⟨ex, hlk, hup, heq⟩ | ⟨heq, hlt⟩
      · rw [heq]; exact ⟨q, hq, rfl, le_refl _⟩
      · rw [heq]
        by_cases hqk : q.1 = lowerStr e.2.nick
        · have hlq : alookup q.1 acc = some q.2 := alookup_of_mem_nodup hacc.1 hq
          rw [hqk] at hlq
          have hlt2 := hlt q.2 hlq
          refine ⟨(lowerStr e.2.nick, e), List.mem_cons_self _ _, hqk.symm, ?_⟩
          show q.2.2.updated ≤ e.2.updated
          omega
        · refine ⟨q, ?_, rfl, le_refl _⟩
          exact List.mem_cons_of_mem _ (mem_aremove_iff.mpr ⟨hq, hqk⟩)
    rw [List.foldl_cons]
    obtain ⟨ih1, ih2, ih3, ih4⟩ := ih (nickIndexStep acc e) hstep_inv
    refine ⟨ih1, ?_, ?_, ?_⟩
    · intro q hq
      rcases ih2 q hq with h | h
      · exact Or.inl (List.mem_cons_of_mem _ h)
      · rcases hstep_mem q h with h2 | h2
        · exact Or.inl (by rw [h2]; exact List.mem_cons_self _ _)
        · exact Or.inr h2
    · intro e2 he2
      rcases List.mem_cons.mp he2 with he2 | he2
      · subst he2
        obtain ⟨q, hq, hk, hu⟩ := hstep_cov
        obtain ⟨q2, hq2, hk2, hu2⟩ := ih4 q hq
        exact ⟨q2, hq2, hk2.trans hk, hu.trans hu2⟩
      · exact ih3 e2 he2
    · intro q hq
      obtain ⟨q1, hq1, hk1, hu1⟩ := hstep_mono q hq
      obtain ⟨q2, hq2, hk2, hu2⟩ := ih4 q1 hq1
      exact ⟨q2, hq2, hk2.trans hk1, hu1.trans hu2⟩

/-- C5: the map `save_inner` persists has pairwise-distinct lowercase
nicks; every persisted record is one of the input records; and for every
input record the persisted record carrying its lowercase nick has an
`updated` at least as large — so of two conflicting records the one with
the strictly larger `updated` is retained and the other binding dropped. -/
theorem save_inner_dedup (l : List (RStr × IdentityRecord)) :
    ((savedRecords l).map (fun p => lowerStr p.2.nick)).Nodup ∧
    (∀ e ∈ savedRecords l, e ∈ l) ∧
    (∀ e ∈ l, ∃ q ∈ savedRecords l,
      lowerStr q.2.nick = lowerStr e.2.nick ∧ e.2.updated ≤ q.2.updated) := by
  obtain ⟨⟨hnd, hval⟩, hsub, hcov, _⟩ := nickIndex_fold l [] (by simp)
  refine ⟨?_, ?_, ?_⟩
  · have hmap : (savedRecords l).map (fun p => lowerStr p.2.nick) =
        (buildNickIndex l).map Prod.fst := by
      rw [savedRecords, List.map_map]
      apply List.map_congr_left
      intro q hq
      exact (hval q hq).symm
    rw [hmap]
    exact hnd
  · intro e he
    rw [savedRecords, List.mem_map] at he
    obtain ⟨q, hq, rfl⟩ := he
    rcases hsub q hq with h | h
    · exact h
    · simp at h
  · intro e he
    obtain ⟨q, hq, hkey, hupd⟩ := hcov e he
    refine ⟨q.2, List.mem_map_of_mem Prod.snd hq, ?_, hupd⟩
    rw [← hval q hq, hkey]

/-- C5 witness: of the records `Bob@5` (IP 1.1.1.1), `bob@9` (2.2.2.2) and
`carol@1` (3.3.3.3), the persisted map keeps distinct lowercase nicks, and
the surviving `bob` record has `updated ≥ 9 > 5`, dropping the older one. -/
theorem save_inner_dedup_witness :
    ((savedRecords
        [("1.1.1.1".data, { nick := "Bob".data, updated := 5 }),
         ("2.2.2.2".data, { nick := "bob".data, updated := 9 }),
         ("3.3.3.3".data, { nick := "carol".data, updated := 1 })]).map
      (fun p => lowerStr p.2.nick)).Nodup ∧
    (∃ q ∈ savedRecords
        [("1.1.1.1".data, { nick := "Bob".data, updated := 5 }),
         ("2.2.2.2".data, { nick := "bob".data, updated := 9 }),
         ("3.3.3.3".data, { nick := "carol".data, updated := 1 })],
      lowerStr q.2.nick = lowerStr "bob".data ∧ 9 ≤ q.2.updated) := by
  refine ⟨(save_inner_dedup _).1, ?_⟩
  obtain ⟨q, hq, hk, hu⟩ := (save_inner_dedup
      [("1.1.1.1".data, { nick := "Bob".data, updated := 5 }),
       ("2.2.2.2".data, { nick := "bob".data, updated := 9 }),
       ("3.3.3.3".data, { nick := "carol".data, updated := 1 })]).2.2
    ("2.2.2.2".data, { nick := "bob".data, updated := 9 })
    (by simp)
  exact ⟨q, hq, hk, hu⟩

/-! ## C4: the warn-once rate-limit policy of the session loop -/

theorem rateStep_eq (s : SessState) (now : Nat) :
    rateStep s now =
      ({ conn := (s.conn.check now).1,
         connWarned := !(s.conn.check now).2,
         ip := { limiter := (s.ip.limiter.check now).1,
                 warned := !(s.ip.limiter.check now).2 } },
       ((!(s.conn.check now).2 || !(s.ip.limiter.check now).2) &&
         !((!(s.conn.check now).2 && s.connWarned) ||
           (!(s.ip.limiter.check now).2 && s.ip.warned))),
       ((!(s.conn.check now).2 && s.connWarned) ||
         (!(s.ip.limiter.check now).2 && s.ip.warned))) := by
  cases hc : (s.conn.check now).2 <;> cases hi : (s.ip.limiter.check now).2 <;>
    cases hw : s.connWarned <;> cases hv : s.ip.warned <;>
      simp [rateStep, IpRate.check, hc, hi, hw, hv]

theorem stepDis_eq (s : SessState) (now : Nat) :
    stepDis (s, now) =
      ((!okAt true (s, now) && warnedOf true s) ||
       (!okAt false (s, now) && warnedOf false s)) := by
  simp [stepDis, rateStep_eq, okAt, warnedOf]

theorem stepSys_eq (s : SessState) (now : Nat) :
    stepSys (s, now) =
      ((!okAt true (s, now) || !okAt false (s, now)) && !stepDis (s, now)) := by
  simp [stepSys, stepDis, rateStep_eq, okAt, warnedOf]

theorem rateStep_warned (w : Bool) (s : SessState) (now : Nat) :
    warnedOf w ((rateStep s now).1) = !okAt w (s, now) := by
  cases w <;> simp [rateStep_eq, warnedOf, okAt]

theorem traceFrom_dis_aux :
    ∀ (ts : List Nat) (s : SessState) (n : Nat)
      (hn : n < (traceFrom s ts).length),
      stepDis ((traceFrom s ts).get ⟨n, hn⟩) = true →
      ∃ w,
        okAt w ((traceFrom s ts).get ⟨n, hn⟩) = false ∧
        warnedOf w ((traceFrom s ts).get ⟨n, hn⟩).1 = true ∧
        ((warnedOf w s = true ∧
           ∀ k (hk : k < (traceFrom s ts).length), k < n →
             okAt w ((traceFrom s ts).get ⟨k, hk⟩) = false) ∨
         (∃ m, ∃ hm : m < (traceFrom s ts).length, m < n ∧
           stepSys ((traceFrom s ts).get ⟨m, hm⟩) = true ∧
           okAt w ((traceFrom s ts).get ⟨m, hm⟩) = false ∧
           ∀ k (hk : k < (traceFrom s ts).length), m < k → k < n →
             okAt w ((traceFrom s ts).get ⟨k, hk⟩) = false)) := by
  intro ts
  induction ts with
  | nil =>
    intro s n hn
    simp [traceFrom] at hn
  | cons t ts ih =>
    intro s n hn hdis
    by_cases hd0 : (rateStep s t).2.2 = true
    · have htr : traceFrom s (t :: ts) = [(s, t)] := by
        simp [traceFrom, hd0]
      have hn0 : n = 0 := by
        rw [htr] at hn
        simpa using hn
      subst hn0
      have hget : (traceFrom s (t :: ts)).get ⟨0, hn⟩ = (s, t) := by
        rw [List.get_of_eq htr]
        rfl
      rw [hget] at hdis ⊢
      have hform := stepDis_eq s t
      rw [hdis] at hform
      have hcases : (!okAt true (s, t) && warnedOf true s) = true ∨
          (!okAt false (s, t) && warnedOf false s) = true := by
        rcases Bool.or_eq_true_iff.mp hform.symm with h | h
        · exact Or.inl h
        · exact Or.inr h
      rcases hcases with h | h
      · rcases Bool.and_eq_true_iff.mp h with ⟨h1, h2⟩
        refine ⟨true, by simpa using h1, h2, Or.inl ⟨h2, ?_⟩⟩
        intro k hk hk0
        omega
      · rcases Bool.and_eq_true_iff.mp h with ⟨h1, h2⟩
        refine ⟨false, by simpa using h1, h2, Or.inl ⟨h2, ?_⟩⟩
        intro k hk hk0
        omega
    · have hd0f : (rateStep s t).2.2 = false := by
        cases hE : (rateStep s t).2.2
        · rfl
        · exact absurd hE hd0
      have htr : traceFrom s (t :: ts) =
          (s, t) :: traceFrom (rateStep s t).1 ts := by
        simp [traceFrom, hd0f]
      rcases n with _ | n'
      · have hget : (traceFrom s (t :: ts)).get ⟨0, hn⟩ = (s, t) := by
          rw [List.get_of_eq htr]
          rfl
        rw [hget] at hdis
        rw [show stepDis (s, t) = (rateStep s t).2.2 from rfl, hd0f] at hdis
        cases hdis
      · have hn' : n' < (traceFrom (rateStep s t).1 ts).length := by
          rw [htr] at hn
          simpa using hn
        have hlift : ∀ (k : Nat) (hk : k < (traceFrom (rateStep s t).1 ts).length),
            ∃ hk1 : k + 1 < (traceFrom s (t :: ts)).length,
              (traceFrom s (t :: ts)).get ⟨k + 1, hk1⟩ =
                (traceFrom (rateStep s t).1 ts).get ⟨k, hk⟩ := by
          intro k hk
          refine ⟨by rw [htr]; simpa using Nat.succ_lt_succ hk, ?_⟩
          rw [List.get_of_eq htr]
          rfl
        obtain ⟨hg1, hg2⟩ := hlift n' hn'
        have hdis' : stepDis ((traceFrom (rateStep s t).1 ts).get ⟨n', hn'⟩) = true := by
          rw [← hg2]
          rw [show (traceFrom s (t :: ts)).get ⟨n' + 1, hg1⟩ =
            (traceFrom s (t :: ts)).get ⟨n' + 1, hn⟩ from rfl] at hg2 ⊢
          exact hdis
        obtain ⟨w, hok, hwarn, hdisj⟩ := ih (rateStep s t).1 n' hn' hdis'
        have hgn : (traceFrom s (t :: ts)).get ⟨n' + 1, hn⟩ =
            (traceFrom (rateStep s t).1 ts).get ⟨n', hn'⟩ := by
          rw [show (⟨n' + 1, hn⟩ : Fin (traceFrom s (t :: ts)).length) =
            ⟨n' + 1, hg1⟩ from rfl]
          exact hg2
        refine ⟨w, by rw [hgn]; exact hok, by rw [hgn]; exact hwarn, ?_⟩
        rcases hdisj with ⟨hw1, hall⟩ | ⟨m, hm, hmn, hsys, hokm, hall⟩
        · have hok0 : okAt w (s, t) = false := by
            have := rateStep_warned w s t
            rw [hw1] at this
            cases hE : okAt w (s, t)
            · rfl
            · rw [hE] at this; cases this
          by_cases hws : warnedOf w s = true
          · refine Or.inl ⟨hws, ?_⟩
            intro k hk hkn
            rcases k with _ | k'
            · have : (traceFrom s (t :: ts)).get ⟨0, hk⟩ = (s, t) := by
                rw [List.get_of_eq htr]; rfl
              rw [this]
              exact hok0
            · have hk' : k' < (traceFrom (rateStep s t).1 ts).length := by
                rw [htr] at hk
                simpa using hk
              obtain ⟨hk1, hkeq⟩ := hlift k' hk'
              rw [show (⟨k' + 1, hk⟩ : Fin (traceFrom s (t :: ts)).length) =
                ⟨k' + 1, hk1⟩ from rfl, hkeq]
              exact hall k' hk' (by omega)
          · have hws' : warnedOf w s = false := by
              cases hE : warnedOf w s
              · rfl
              · exact absurd hE hws
            have hsys0 : stepSys (s, t) = true := by
              rw [stepSys_eq]
              rw [show stepDis (s, t) = (rateStep s t).2.2 from rfl, hd0f]
              cases w
              · simp at hok0
                simp [hok0]
              · simp at hok0
                simp [hok0]
            have h0len : 0 < (traceFrom s (t :: ts)).length := by
              rw [htr]; simp
            refine Or.inr ⟨0, h0len, by omega, ?_, ?_, ?_⟩
            · have : (traceFrom s (t :: ts)).get ⟨0, h0len⟩ = (s, t) := by
                rw [List.get_of_eq htr]; rfl
              rw [this]
              exact hsys0
            · have : (traceFrom s (t :: ts)).get ⟨0, h0len⟩ = (s, t) := by
                rw [List.get_of_eq htr]; rfl
              rw [this]
              exact hok0
            · intro k hk hk0 hkn
              rcases k with _ | k'
              · omega
              · have hk' : k' < (traceFrom (rateStep s t).1 ts).length := by
                  rw [htr] at hk
                  simpa using hk
                obtain ⟨hk1, hkeq⟩ := hlift k' hk'
                rw [show (⟨k' + 1, hk⟩ : Fin (traceFrom s (t :: ts)).length) =
                  ⟨k' + 1, hk1⟩ from rfl, hkeq]
                exact hall k' hk' (by omega)
        · obtain ⟨hm1, hmeq⟩ := hlift m hm
          refine Or.inr ⟨m + 1, hm1, by omega, by rw [hmeq]; exact hsys,
            by rw [hmeq]; exact hokm, ?_⟩
          intro k hk hkm hkn
          rcases k with _ | k'
          · omega
          · have hk' : k' < (traceFrom (rateStep s t).1 ts).length := by
              rw [htr] at hk
              simpa using hk
            obtain ⟨hk1, hkeq⟩ := hlift k' hk'
            rw [show (⟨k' + 1, hk⟩ : Fin (traceFrom s (t :: ts)).length) =
              ⟨k' + 1, hk1⟩ from rfl, hkeq]
            exact hall k' hk' (by omega) (by omega)

/-- Session rate state with connection limit 2 and IP limit 1, both fresh
at instant 0 (used as a concrete scenario below). -/
def sessCex : SessState :=
  { conn := RateLimiter.new 2 1 0, connWarned := false, ip := IpRate.new 1 0 }

/-- Session rate state with connection limit 1 and IP limit 5, both fresh
at instant 0 (used as a concrete scenario below). -/
def sessWit : SessState :=
  { conn := RateLimiter.new 1 1 0, connWarned := false, ip := IpRate.new 5 0 }

/-- C4 counterexample to the claim as stated: with connection limit 2 and
IP limit 1 (one-second windows), three messages in the same window give:
pass 2 fails only the IP check and sends the warning; pass 3 fails the
connection check while the connection `warned` flag is still clear
(`okAt true = false`, `warnedOf true = false`), yet the session sends no
`SYS` and disconnects, because the IP limiter was already warned. -/
theorem warn_once_policy_cex :
    (traceFrom sessCex [0, 0, 0]).map
        (fun p => (okAt true p, warnedOf true p.1, stepSys p, stepDis p)) =
      [(true, false, false, false), (true, false, true, false),
       (false, false, false, true)] := by decide

/-- C4 (amended): (i) a pass disconnects iff some limiter's check fails
while that limiter's `warned` flag is already set; (ii) a failed check on
a limiter with a clear flag sets that flag, and — unless the other
limiter simultaneously fails with its flag already set, which disconnects
the session without a warning — the pass sends `SYS rate limit exceeded`
and does not terminate; (iii) a successful check clears the flag; (iv)
hence a session starting with clear flags is never disconnected without
an earlier `SYS rate limit exceeded` caused by the same limiter with no
intervening successful check of that limiter. -/
theorem warn_once_policy :
    (∀ (s : SessState) (now : Nat),
      stepDis (s, now) = true ↔
        ((okAt true (s, now) = false ∧ warnedOf true s = true) ∨
         (okAt false (s, now) = false ∧ warnedOf false s = true))) ∧
    (∀ (s : SessState) (now : Nat) (w : Bool),
      okAt w (s, now) = false → warnedOf w s = false →
        warnedOf w ((rateStep s now).1) = true ∧
        (stepDis (s, now) = true ↔
          (okAt (!w) (s, now) = false ∧ warnedOf (!w) s = true)) ∧
        (stepDis (s, now) = false → stepSys (s, now) = true)) ∧
    (∀ (s : SessState) (now : Nat) (w : Bool),
      okAt w (s, now) = true → warnedOf w ((rateStep s now).1) = false) ∧
    (∀ (s : SessState) (ts : List Nat) (n : Nat)
      (hn : n < (traceFrom s ts).length),
      warnedOf true s = false → warnedOf false s = false →
      stepDis ((traceFrom s ts).get ⟨n, hn⟩) = true →
      ∃ w m, ∃ hm : m < (traceFrom s ts).length, m < n ∧
        stepSys ((traceFrom s ts).get ⟨m, hm⟩) = true ∧
        okAt w ((traceFrom s ts).get ⟨m, hm⟩) = false ∧
        (∀ k (hk : k < (traceFrom s ts).length), m < k → k < n →
          okAt w ((traceFrom s ts).get ⟨k, hk⟩) = false) ∧
        okAt w ((traceFrom s ts).get ⟨n, hn⟩) = false ∧
        warnedOf w ((traceFrom s ts).get ⟨n, hn⟩).1 = true) := by
  refine ⟨?_, ?_, ?_, ?_⟩
  · intro s now
    cases h1 : okAt true (s, now) <;> cases h2 : okAt false (s, now) <;>
      cases h3 : warnedOf true s <;> cases h4 : warnedOf false s <;>
        simp [stepDis_eq, h1, h2, h3, h4]
  · intro s now w hok hw
    refine ⟨?_, ?_, ?_⟩
    · rw [rateStep_warned, hok]
      rfl
    · cases w
      · cases h1 : okAt true (s, now) <;> cases h3 : warnedOf true s <;>
          simp [stepDis_eq, hok, hw, h1, h3]
      · cases h2 : okAt false (s, now) <;> cases h4 : warnedOf false s <;>
          simp [stepDis_eq, hok, hw, h2, h4]
    · intro hnd
      rw [stepSys_eq, hnd]
      cases w
      · simp [hok]
      · simp [hok]
  · intro s now w hokt
    rw [rateStep_warned, hokt]
    rfl
  · intro s ts n hn h1 h2 hdis
    obtain ⟨w, hok, hwarn, hdisj⟩ := traceFrom_dis_aux ts s n hn hdis
    rcases hdisj with ⟨hw1, _⟩ | ⟨m, hm, hmn, hsys, hokm, hall⟩
    · cases w
      · rw [h2] at hw1; cases hw1
      · rw [h1] at hw1; cases hw1
    · exact ⟨w, m, hm, hmn, hsys, hokm, hall, hok, hwarn⟩

/-- C4 witness: with connection limit 1 and IP limit 5, three messages in
one window warn on the second pass and disconnect on the third (index 2);
the theorem produces the prior `SYS` pass before the disconnecting pass. -/
theorem warn_once_policy_witness :
    warnedOf true sessWit = false ∧
    ∃ w m, ∃ hm : m < (traceFrom sessWit [0, 0, 0]).length,
      m < 2 ∧
      stepSys ((traceFrom sessWit [0, 0, 0]).get ⟨m, hm⟩) = true ∧
      okAt w ((traceFrom sessWit [0, 0, 0]).get ⟨m, hm⟩) = false := by
  refine ⟨rfl, ?_⟩
  obtain ⟨w, m, hm, hmn, hsys, hokm, _⟩ :=
    warn_once_policy.2.2.2 sessWit [0, 0, 0] 2 (by decide) rfl rfl (by decide)
  exact ⟨w, m, hm, hmn, hsys, hokm⟩

/-! ## C1: the hub nick-index invariant -/

theorem map_update_eq_self {α β : Type} [DecidableEq α] {k : α} (g : β → β)
    {l : List (α × β)} (h : ∀ p ∈ l, p.1 ≠ k) :
    l.map (fun p => if p.1 = k then (p.1, g p.2) else p) = l := by
  conv_rhs => rw [← List.map_id l]
  apply List.map_congr_left
  intro p hp
  rw [if_neg (h p hp)]
  rfl

theorem keys_map_update {α β : Type} [DecidableEq α] (k : α) (g : β → β)
    (l : List (α × β)) :
    (l.map (fun p => if p.1 = k then (p.1, g p.2) else p)).map Prod.fst =
      l.map Prod.fst := by
  rw [List.map_map]
  apply List.map_congr_left
  intro p _
  by_cases hp : p.1 = k <;> simp [hp]

theorem multiset_decomp {α β : Type} [DecidableEq α] {k : α} {v : β} :
    ∀ {l : List (α × β)}, (l.map Prod.fst).Nodup → alookup k l = some v →
      (↑l : Multiset (α × β)) = (k, v) ::ₘ (↑(aremove k l) : Multiset (α × β)) := by
  intro l
  induction l with
  | nil => intro _ h; simp [alookup] at h
  | cons p t ih =>
    intro hnd h
    rw [List.map_cons, List.nodup_cons] at hnd
    rw [alookup_cons] at h
    rw [aremove_cons]
    by_cases hp : p.1 = k
    · rw [if_pos hp] at h
      have hv : p.2 = v := Option.some_inj.mp h
      have hrm : aremove k t = t := by
        apply aremove_eq_self
        intro q hq hqk
        exact hnd.1 (by rw [← hp] at hqk; exact hqk ▸ List.mem_map_of_mem Prod.fst hq)
      rw [if_pos hp, hrm]
      have hpkv : p = (k, v) := Prod.ext_iff.mpr ⟨hp, hv⟩
      rw [hpkv]
      rfl
    · rw [if_neg hp] at h
      rw [if_neg hp]
      have := ih hnd.2 h
      calc (↑(p :: t) : Multiset (α × β)) = p ::ₘ (↑t : Multiset (α × β)) := rfl
        _ = p ::ₘ (k, v) ::ₘ (↑(aremove k t) : Multiset (α × β)) := by rw [this]
        _ = (k, v) ::ₘ p ::ₘ (↑(aremove k t) : Multiset (α × β)) :=
            Multiset.cons_swap _ _ _
        _ = (k, v) ::ₘ (↑(p :: aremove k t) : Multiset (α × β)) := rfl

theorem multiset_update {α β : Type} [DecidableEq α] (g : β → β) {k : α} {v : β} :
    ∀ {l : List (α × β)}, (l.map Prod.fst).Nodup → alookup k l = some v →
      (↑(l.map (fun p => if p.1 = k then (p.1, g p.2) else p)) : Multiset (α × β)) =
        (k, g v) ::ₘ (↑(aremove k l) : Multiset (α × β)) := by
  intro l
  induction l with
  | nil => intro _ h; simp [alookup] at h
  | cons p t ih =>
    intro hnd h
    rw [List.map_cons, List.nodup_cons] at hnd
    rw [alookup_cons] at h
    rw [aremove_cons, List.map_cons]
    by_cases hp : p.1 = k
    · rw [if_pos hp] at h
      have hv : p.2 = v := Option.some_inj.mp h
      have htk : ∀ q ∈ t, q.1 ≠ k := by
        intro q hq hqk
        exact hnd.1 (by rw [← hp] at hqk; exact hqk ▸ List.mem_map_of_mem Prod.fst hq)
      rw [if_pos hp, if_pos hp, map_update_eq_self g htk, aremove_eq_self htk]
      rw [show (p.1, g p.2) = (k, g v) from by rw [hp, hv]]
      rfl
    · rw [if_neg hp] at h
      rw [if_neg hp, if_neg hp]
      have := ih hnd.2 h
      calc (↑(p :: t.map (fun p => if p.1 = k then (p.1, g p.2) else p)) :
              Multiset (α × β)) =
          p ::ₘ (↑(t.map (fun p => if p.1 = k then (p.1, g p.2) else p)) :
              Multiset (α × β)) := rfl
        _ = p ::ₘ (k, g v) ::ₘ (↑(aremove k t) : Multiset (α × β)) := by rw [this]
        _ = (k, g v) ::ₘ p ::ₘ (↑(aremove k t) : Multiset (α × β)) :=
            Multiset.cons_swap _ _ _
        _ = (k, g v) ::ₘ (↑(p :: aremove k t) : Multiset (α × β)) := rfl

/-- The inductive invariant of the hub: `nicks` is, as a multiset, the
image of the clients' lowercase nicks; client ids are distinct and below
`next_id`. -/
def HubInv (st : HubState) : Prop :=
  st.nicks.val = (↑(clientLowerNicks st) : Multiset RStr) ∧
  (st.clients.map Prod.fst).Nodup ∧
  (∀ p ∈ st.clients, p.1 < st.nextId)

theorem reachable_hubInv : ∀ st, Reachable st → HubInv st := by
  intro st hre
  induction hre with
  | init connLimit ipLimit =>
    refine ⟨rfl, List.nodup_nil, ?_⟩
    intro p hp
    simp [HubState.new] at hp
  | add st nick ip now _ hfree ihre =>
    obtain ⟨hval, hkeys, hbound⟩ := ihre
    have hfresh : ∀ p ∈ st.clients, p.1 ≠ st.nextId := by
      intro p hp
      have := hbound p hp
      omega
    have hrm : aremove st.nextId st.clients = st.clients := aremove_eq_self hfresh
    refine ⟨?_, ?_, ?_⟩
    · show (insert (lowerStr nick) st.nicks).val = _
      rw [Finset.insert_val_of_not_mem hfree, hval]
      show _ = (↑(clientLowerNicks
        ((st.addClient nick ip now).1)) : Multiset RStr)
      simp only [HubState.addClient, clientLowerNicks, ainsert, hrm, List.map_cons]
      rfl
    · show ((ainsert st.nextId _ st.clients).map Prod.fst).Nodup
      simp only [ainsert]
      rw [hrm, List.map_cons, List.nodup_cons]
      refine ⟨?_, hkeys⟩
      intro hmem
      obtain ⟨p, hp, hpk⟩ := List.mem_map.mp hmem
      exact hfresh p hp hpk
    · intro p hp
      show p.1 < st.nextId + 1
      have hp2 : p ∈ ainsert st.nextId { nick := nick, ip := ip } st.clients := hp
      simp only [ainsert] at hp2
      rw [hrm] at hp2
      rcases List.mem_cons.mp hp2 with hp | hp
      · rw [hp]
        omega
      · have := hbound p hp
        omega
  | remove st id _ ihre =>
    obtain ⟨hval, hkeys, hbound⟩ := ihre
    cases hlk : alookup id st.clients with
    | none =>
      have : (st.removeClient id).1 = st := by
        simp [HubState.removeClient, hlk]
      rw [this]
      exact ⟨hval, hkeys, hbound⟩
    | some h =>
      have hst : (st.removeClient id).1 =
          { st with clients := aremove id st.clients,
                    nicks := st.nicks.erase (lowerStr h.nick),
                    connRates := aremove id st.connRates } := by
        simp [HubState.removeClient, hlk]
      rw [hst]
      refine ⟨?_, ?_, ?_⟩
      · show (st.nicks.erase (lowerStr h.nick)).val = _
        rw [Finset.erase_val, hval]
        have hdec := multiset_decomp hkeys hlk
        have hmap := congrArg (Multiset.map (fun p => lowerStr p.2.nick)) hdec
        rw [Multiset.map_coe, Multiset.map_cons, Multiset.map_coe] at hmap
        show (↑(clientLowerNicks st) : Multiset RStr).erase (lowerStr h.nick) =
          (↑((aremove id st.clients).map (fun p => lowerStr p.2.nick)) :
            Multiset RStr)
        rw [show (↑(clientLowerNicks st) : Multiset RStr) =
          ((st.clients.map (fun p => lowerStr p.2.nick) : List RStr) :
            Multiset RStr) from rfl]
        rw [hmap]
        exact Multiset.erase_cons_head _ _
      · exact (keys_aremove_sublist id st.clients).nodup hkeys
      · intro p hp
        exact hbound p (mem_aremove_iff.mp hp).1
  | ren st id nk _ ihre =>
    obtain ⟨hval, hkeys, hbound⟩ := ihre
    cases hlk : alookup id st.clients with
    | none =>
      have : (st.rename id nk).1 = st := by
        by_cases hm : lowerStr nk ∈ st.nicks <;>
          simp [HubState.rename, hlk, hm]
      rw [this]
      exact ⟨hval, hkeys, hbound⟩
    | some h =>
      by_cases heq : eqIgnoreAsciiCase h.nick nk
      · have : (st.rename id nk).1 = st := by
          simp [HubState.rename, hlk, heq]
        rw [this]
        exact ⟨hval, hkeys, hbound⟩
      · by_cases hm : lowerStr nk ∈ st.nicks
        · have : (st.rename id nk).1 = st := by
            simp [HubState.rename, hlk, heq, hm]
          rw [this]
          exact ⟨hval, hkeys, hbound⟩
        · have hst : (st.rename id nk).1 =
              { st with
                  nicks := insert (lowerStr nk) (st.nicks.erase (lowerStr h.nick)),
                  clients := st.clients.map
                    (fun p => if p.1 = id then (p.1, setNick nk p.2) else p) } := by
            simp [HubState.rename, hlk, heq, hm]
          rw [hst]
          refine ⟨?_, ?_, ?_⟩
          · show (insert (lowerStr nk)
              (st.nicks.erase (lowerStr h.nick))).val = _
            have hnotm : lowerStr nk ∉ st.nicks.erase (lowerStr h.nick) :=
              fun hc => hm (Finset.mem_of_mem_erase hc)
            rw [Finset.insert_val_of_not_mem hnotm, Finset.erase_val, hval]
            have hdec := multiset_decomp hkeys hlk
            have hmap := congrArg (Multiset.map (fun p => lowerStr p.2.nick)) hdec
            rw [Multiset.map_coe, Multiset.map_cons, Multiset.map_coe] at hmap
            have hupd := multiset_update (setNick nk) hkeys hlk
            have hmap2 := congrArg (Multiset.map (fun p => lowerStr p.2.nick)) hupd
            rw [Multiset.map_coe, Multiset.map_cons, Multiset.map_coe] at hmap2
            show lowerStr nk ::ₘ
                (↑(clientLowerNicks st) : Multiset RStr).erase (lowerStr h.nick) =
              (↑((st.clients.map
                (fun p => if p.1 = id then (p.1, setNick nk p.2) else p)).map
                  (fun p => lowerStr p.2.nick)) : Multiset RStr)
            rw [show (↑(clientLowerNicks st) : Multiset RStr) =
              ((st.clients.map (fun p => lowerStr p.2.nick) : List RStr) :
                Multiset RStr) from rfl]
            rw [hmap, hmap2]
            rw [Multiset.erase_cons_head]
            rfl
          · show ((st.clients.map
              (fun p => if p.1 = id then (p.1, setNick nk p.2) else p)).map
                Prod.fst).Nodup
            rw [keys_map_update]
            exact hkeys
          · intro p hp
            obtain ⟨q, hq, hqp⟩ := List.mem_map.mp hp
            have hq1 : p.1 = q.1 := by
              rw [← hqp]
              by_cases hqid : q.1 = id <;> simp [hqid]
            rw [hq1]
            exact hbound q hq

/-- C1: in every reachable hub state the set `nicks` is exactly the set of
the clients' lowercase nicks, no two live clients share a lowercase nick,
and after a successful rename to a nick that differs case-insensitively
the old lowercase nick is no longer in `nicks`. -/
theorem hub_nick_index_invariant (st : HubState) (hre : Reachable st) :
    (clientLowerNicks st).Nodup ∧
    st.nicks = (clientLowerNicks st).toFinset ∧
    (∀ id new h, alookup id st.clients = some h →
      eqIgnoreAsciiCase h.nick new = false →
      (st.rename id new).2 = Except.ok () →
      lowerStr h.nick ∉ (st.rename id new).1.nicks) := by
  obtain ⟨hval, hkeys, _⟩ := reachable_hubInv st hre
  have hnodup : (clientLowerNicks st).Nodup := by
    rw [← Multiset.coe_nodup, ← hval]
    exact st.nicks.nodup
  refine ⟨hnodup, ?_, ?_⟩
  · apply Finset.val_inj.mp
    rw [hval]
    have : (clientLowerNicks st).toFinset.val = ↑(clientLowerNicks st) := by
      rw [show (clientLowerNicks st).toFinset.val =
        (↑(clientLowerNicks st) : Multiset RStr).dedup from rfl]
      exact Multiset.dedup_eq_self.mpr (Multiset.coe_nodup.mpr hnodup)
    rw [this]
  · intro id new h hsome heq hok
    by_cases hm : lowerStr new ∈ st.nicks
    · exfalso
      have hconf : st.rename id new =
          (st, Except.error "nickname already taken".data) := by
        simp [HubState.rename, hsome, heq, hm]
      rw [hconf] at hok
      cases hok
    · have hst : (st.rename id new).1 =
          { st with
              nicks := insert (lowerStr new) (st.nicks.erase (lowerStr h.nick)),
              clients := st.clients.map
                (fun p => if p.1 = id then (p.1, setNick new p.2) else p) } := by
        simp [HubState.rename, hsome, heq, hm]
      rw [hst]
      show lowerStr h.nick ∉
        insert (lowerStr new) (st.nicks.erase (lowerStr h.nick))
      intro hc
      rcases Finset.mem_insert.mp hc with hc | hc
      · have : lowerStr h.nick ≠ lowerStr new := by
          simpa [eqIgnoreAsciiCase] using heq
        exact this hc
      · exact (Finset.mem_erase.mp hc).1 rfl

/-- C1 witness: after adding `Alice` then `Bob` to a fresh hub, the nick
index is duplicate-free and matches the clients, and renaming client 1 to
`Carol` removes `alice` from the index. -/
theorem hub_nick_index_invariant_witness :
    (clientLowerNicks ((((HubState.new 5 20).addClient "Alice".data 7 0).1.addClient
        "Bob".data 8 1).1)).Nodup ∧
    ((((HubState.new 5 20).addClient "Alice".data 7 0).1.addClient
        "Bob".data 8 1).1.nicks =
      (clientLowerNicks ((((HubState.new 5 20).addClient "Alice".data 7 0).1.addClient
        "Bob".data 8 1).1)).toFinset) ∧
    lowerStr "Alice".data ∉
      (((((HubState.new 5 20).addClient "Alice".data 7 0).1.addClient
        "Bob".data 8 1).1.rename 1 "Carol".data).1).nicks := by
  have hre : Reachable ((((HubState.new 5 20).addClient "Alice".data 7 0).1.addClient
      "Bob".data 8 1).1) := by
    apply Reachable.add
    · apply Reachable.add
      · exact Reachable.init 5 20
      · decide
    · decide
  obtain ⟨h1, h2, h3⟩ := hub_nick_index_invariant _ hre
  refine ⟨h1, h2, ?_⟩
  apply h3 1 "Carol".data { nick := "Alice".data, ip := 7 }
  · decide
  · decide
  · rfl

/-! ## C6 and C10: `clean_line` -/

deriving instance DecidableEq for Except

theorem takeBytes_of_le : ∀ (s : RStr) (n : Nat), utf8Len s ≤ n → takeBytes s n = s := by
  intro s
  induction s with
  | nil => intro n _; rfl
  | cons c rest ih =>
    intro n hn
    rw [utf8Len, List.map_cons, List.sum_cons] at hn
    have hc : c.utf8Size ≤ n := by
      have := utf8Len rest
      omega
    rw [takeBytes, if_pos hc, ih (n - c.utf8Size) (by
      rw [utf8Len] at *
      omega)]

theorem truncAt_of_le : ∀ (s : RStr) (n : Nat), utf8Len s ≤ n → truncAt s n = some s := by
  intro s
  induction s with
  | nil =>
    intro n _
    cases n <;> rfl
  | cons c rest ih =>
    intro n hn
    rw [utf8Len, List.map_cons, List.sum_cons] at hn
    have hpos : 0 < c.utf8Size := Char.utf8Size_pos c
    rcases n with _ | m
    · omega
    · have hc : c.utf8Size ≤ m + 1 := by omega
      rw [truncAt, if_pos hc, ih (m + 1 - c.utf8Size) (by
        rw [utf8Len]
        omega)]
      rfl

theorem truncAt_isSome_takeBytes :
    ∀ (s : RStr) (n : Nat) (t : RStr), truncAt s n = some t →
      t = takeBytes s n := by
  intro s
  induction s with
  | nil =>
    intro n t h
    cases n <;> simpa [truncAt, takeBytes] using h.symm
  | cons c rest ih =>
    intro n t h
    rcases n with _ | m
    · rw [truncAt] at h
      have : t = [] := by simpa using h.symm
      rw [this, takeBytes]
      have : ¬c.utf8Size ≤ 0 := by
        have := Char.utf8Size_pos c
        omega
      rw [if_neg this]
    · rw [truncAt] at h
      by_cases hc : c.utf8Size ≤ m + 1
      · rw [if_pos hc] at h
        cases hrec : truncAt rest (m + 1 - c.utf8Size) with
        | none => rw [hrec] at h; cases h
        | some t2 =>
          rw [hrec] at h
          have ht : t = c :: t2 := by simpa using h.symm
          rw [ht, takeBytes, if_pos hc, ← ih (m + 1 - c.utf8Size) t2 hrec]
      · rw [if_neg hc] at h
        cases h

/-- Byte index `n` is reachable by whole characters of `s` (either the
string fits in `n` bytes, or the code's truncation succeeds there). -/
def boundaryOk (s : RStr) (n : Nat) : Bool :=
  decide (utf8Len s ≤ n) || (truncAt s n).isSome

/-- C6 (amended): on every input for which byte index 1024 of the CR/LF-
stripped line falls on a character boundary, `clean_line` is exactly:
strip trailing CR/LF, truncate to at most 1024 bytes, trim surrounding
whitespace, and return `None` iff the result is empty, else `Some` of it.
(On other inputs the `String::truncate` call panics, see the
counterexample.) -/
theorem clean_line_spec (line : RStr)
    (hb : boundaryOk (stripCRLF line) MAX_LINE = true) :
    cleanLine line =
      RRes.ret
        (if trimStr (takeBytes (stripCRLF line) MAX_LINE) = [] then none
         else some (trimStr (takeBytes (stripCRLF line) MAX_LINE))) := by
  by_cases hlen : utf8Len (stripCRLF line) > MAX_LINE
  · have hsome : (truncAt (stripCRLF line) MAX_LINE).isSome = true := by
      rcases Bool.or_eq_true_iff.mp hb with h | h
      · rw [decide_eq_true_iff] at h
        omega
      · exact h
    obtain ⟨t, ht⟩ := Option.isSome_iff_exists.mp hsome
    have htake : t = takeBytes (stripCRLF line) MAX_LINE :=
      truncAt_isSome_takeBytes _ _ _ ht
    rw [cleanLine]
    simp only [if_pos hlen, ht, ← htake]
    split <;> rfl
  · have hle : utf8Len (stripCRLF line) ≤ MAX_LINE := by omega
    rw [cleanLine]
    simp only [if_neg hlen]
    rw [takeBytes_of_le _ _ hle]
    split <;> rfl

set_option maxRecDepth 8000 in
/-- C6 counterexample to the claim as stated: 255 four-byte characters
followed by `a` and another four-byte character total 1025 bytes with
byte 1024 inside the final character, so `clean_line` panics instead of
returning `Some`/`None`. -/
theorem clean_line_cex :
    cleanLine (List.replicate 255 '𝄞' ++ ['a', '𝄞']) = RRes.crash := by decide

/-- C6 witness: a short line with surrounding whitespace and CR LF is
cleaned to its trimmed core. -/
theorem clean_line_spec_witness :
    boundaryOk (stripCRLF "  hi \r\n".data) MAX_LINE = true ∧
    cleanLine "  hi \r\n".data = RRes.ret (some "hi".data) := by
  refine ⟨by decide, ?_⟩
  rw [clean_line_spec "  hi \r\n".data (by decide)]
  decide

set_option maxRecDepth 8000 in
/-- C10: `clean_line` panics (it is not total): on 255 four-byte
characters, two `b`s and a final four-byte character (1026 bytes, byte
index 1024 inside the final character), `String::truncate` panics. -/
theorem clean_line_total_bug :
    cleanLine (List.replicate 255 '𝄞' ++ ['b', 'b', '𝄞']) = RRes.crash := by decide

/-! ## C7: client-line parsing -/

theorem cleanLine_some_ne_nil {line r : RStr}
    (h : cleanLine line = RRes.ret (some r)) : r ≠ [] := by
  rw [cleanLine] at h
  rcases htr : (if utf8Len (stripCRLF line) > MAX_LINE
      then truncAt (stripCRLF line) MAX_LINE else some (stripCRLF line)) with _ | t
  · rw [htr] at h
    cases h
  · rw [htr] at h
    dsimp only at h
    by_cases hnil : trimStr t = []
    · rw [if_pos hnil] at h
      cases h
    · rw [if_neg hnil] at h
      have : trimStr t = r := by
        have := Option.some_inj.mp (RRes.ret.inj h)
        exact this
      rw [← this]
      exact hnil

/-- The amended claim C7 as a reference function on cleaned lines: match
the first token case-insensitively; the remainder after the first space
is trimmed of surrounding whitespace (it is not verbatim); NICK and SAY
require it non-empty; PROMPT splits it at the first space into id and
answer (each trimmed, the answer may contain interior spaces); an empty
line is `empty line`, NICK without a name `missing nickname`, any other
first token `unknown command`. -/
def clientLineSpec (s : RStr) : Except RStr ClientMsg :=
  if s = [] then Except.error "empty line".data
  else
    let cmd := (splitFirst s).1
    let rest := trimStr ((splitFirst s).2.getD [])
    if upperStr cmd = "NICK".data then
      if rest = [] then Except.error "missing nickname".data
      else Except.ok (ClientMsg.nick rest)
    else if upperStr cmd = "SAY".data then
      if rest = [] then Except.error "empty message".data
      else Except.ok (ClientMsg.say rest)
    else if upperStr cmd = "WHO".data then Except.ok ClientMsg.who
    else if upperStr cmd = "QUIT".data then Except.ok ClientMsg.quit
    else if upperStr cmd = "PROMPT".data then
      let id := trimStr (splitFirst rest).1
      let answer := trimStr ((splitFirst rest).2.getD [])
      if id = [] ∨ answer = [] then Except.error "invalid prompt reply".data
      else Except.ok (ClientMsg.prompt id answer)
    else Except.error "unknown command".data

/-- C7 (amended): on every cleaned line `parse_client_line` behaves as
`clientLineSpec` describes, and on a line that cleans to nothing it fails
with `empty line`. -/
theorem parse_client_line_spec (s : RStr) :
    (cleanLine s = RRes.ret (some s) →
      parseClientLine s = RRes.ret (clientLineSpec s)) ∧
    (cleanLine s = RRes.ret none →
      parseClientLine s = RRes.ret (Except.error "empty line".data)) := by
  constructor
  · intro hc
    have hne : s ≠ [] := cleanLine_some_ne_nil hc
    rw [parseClientLine, hc]
    rw [clientLineSpec, if_neg hne]
  · intro hc
    rw [parseClientLine, hc]

/-- C7 counterexample to the claim as stated: `SAY  hi` (two spaces) is a
cleaned line whose remainder after one space is ` hi`, but the parser
trims it and returns `hi`. -/
theorem parse_client_line_cex :
    cleanLine "SAY  hi".data = RRes.ret (some "SAY  hi".data) ∧
    parseClientLine "SAY  hi".data =
      RRes.ret (Except.ok (ClientMsg.say "hi".data)) ∧
    parseClientLine "SAY  hi".data ≠
      RRes.ret (Except.ok (ClientMsg.say " hi".data)) := by
  refine ⟨by decide, by decide, by decide⟩

/-- C7 witness: `NICK alice` is a cleaned line and parses per the spec
function. -/
theorem parse_client_line_spec_witness :
    cleanLine "NICK alice".data = RRes.ret (some "NICK alice".data) ∧
    parseClientLine "NICK alice".data = RRes.ret (clientLineSpec "NICK alice".data) ∧
    clientLineSpec "NICK alice".data = Except.ok (ClientMsg.nick "alice".data) := by
  refine ⟨by decide, ?_, by decide⟩
  exact (parse_client_line_spec "NICK alice".data).1 (by decide)

/-! ## C8: server-message round-trip -/

theorem splitFirst_no_space : ∀ (w : RStr), ' ' ∉ w → splitFirst w = (w, none) := by
  intro w
  induction w with
  | nil => intro _; rfl
  | cons c rest ih =>
    intro h
    have hc : ¬(c = ' ') := fun hc => h (hc ▸ List.mem_cons_self _ _)
    rw [splitFirst, if_neg hc, ih (fun hm => h (List.mem_cons_of_mem _ hm))]

theorem splitFirst_append : ∀ (w r : RStr), ' ' ∉ w →
    splitFirst (w ++ ' ' :: r) = (w, some r) := by
  intro w
  induction w with
  | nil =>
    intro r _
    rw [List.nil_append, splitFirst, if_pos rfl]
  | cons c rest ih =>
    intro r h
    have hc : ¬(c = ' ') := fun hc => h (hc ▸ List.mem_cons_self _ _)
    rw [List.cons_append, splitFirst, if_neg hc,
      ih r (fun hm => h (List.mem_cons_of_mem _ hm))]

theorem cleanLine_eq_self {s : RStr} (hne : s ≠ []) (hlen : utf8Len s ≤ MAX_LINE)
    (hhead : ∀ c, s.head? = some c → isWS c = false)
    (hlast : ∀ c, s.getLast? = some c → isWS c = false) :
    cleanLine s = RRes.ret (some s) := by
  have hlastWS : ∀ (hl : s ≠ []), isWS (s.getLast hl) = false := by
    intro hl
    exact hlast _ (List.getLast?_eq_getLast_of_ne_nil hl)
  have hstrip : stripCRLF s = s := by
    rw [stripCRLF, List.rdropWhile_eq_self_iff]
    intro hl hp
    have hws := hlastWS hl
    rcases Bool.or_eq_true_iff.mp hp with h | h
    · rw [decide_eq_true_iff] at h
      rw [h] at hws
      simp [isWS] at hws
    · rw [decide_eq_true_iff] at h
      rw [h] at hws
      simp [isWS] at hws
  have hdrop : s.dropWhile isWS = s := by
    rw [List.dropWhile_eq_self_iff]
    intro hl hp
    have hh : s.head? = some (s.get ⟨0, hl⟩) := by
      cases s with
      | nil => simp at hl
      | cons a t => rfl
    rw [hhead _ hh] at hp
    cases hp
  have htrim : trimStr s = s := by
    rw [trimStr, hdrop, List.rdropWhile_eq_self_iff]
    intro hl hp
    rw [hlastWS hl] at hp
    cases hp
  have hgt : ¬(utf8Len s > MAX_LINE) := by omega
  rw [cleanLine]
  simp only [hstrip, if_neg hgt]
  rw [htrim, if_neg hne]

theorem trimStr_eq_self_facts {s : RStr} (h : trimStr s = s) :
    (∀ c, s.head? = some c → isWS c = false) ∧
    (∀ c, s.getLast? = some c → isWS c = false) := by
  have hlen1 : (s.dropWhile isWS).length ≤ s.length :=
    (List.dropWhile_suffix isWS).sublist.length_le
  have hlen2 : ((s.dropWhile isWS).rdropWhile isWS).length ≤
      (s.dropWhile isWS).length := by
    rw [List.rdropWhile, List.length_reverse]
    calc ((s.dropWhile isWS).reverse.dropWhile isWS).length
        ≤ (s.dropWhile isWS).reverse.length :=
          (List.dropWhile_suffix isWS).sublist.length_le
      _ = (s.dropWhile isWS).length := List.length_reverse _
  have hleq : (s.dropWhile isWS).length = s.length := by
    rw [trimStr] at h
    have := congrArg List.length h
    omega
  have hdrop : s.dropWhile isWS = s :=
    (List.dropWhile_suffix isWS).eq_of_length hleq
  rw [trimStr, hdrop] at h
  constructor
  · intro c hc
    have hl : 0 < s.length := by
      cases s with
      | nil => cases hc
      | cons a t => simp
    have := List.dropWhile_eq_self_iff.mp hdrop hl
    have hhc : s.head? = some (s.get ⟨0, hl⟩) := by
      cases s with
      | nil => simp at hl
      | cons a t => rfl
    rw [hc] at hhc
    have hceq : c = s.get ⟨0, hl⟩ := Option.some_inj.mp hhc
    rw [hceq]
    cases hE : isWS (s.get ⟨0, hl⟩)
    · rfl
    · exact absurd hE this
  · intro c hc
    have hl : s ≠ [] := by
      cases s with
      | nil => cases hc
      | cons a t => simp
    have := List.rdropWhile_eq_self_iff.mp h hl
    have hlc : s.getLast? = some (s.getLast hl) := List.getLast?_eq_getLast_of_ne_nil hl
    rw [hc] at hlc
    have hceq : c = s.getLast hl := Option.some_inj.mp hlc
    rw [hceq]
    cases hE : isWS (s.getLast hl)
    · rfl
    · exact absurd hE this

theorem digitChar_isDigit {d : Nat} (h : d < 10) :
    (Nat.digitChar d).isDigit = true := by
  interval_cases d <;> decide

theorem digitChar_val {d : Nat} (h : d < 10) :
    (Nat.digitChar d).toNat - 48 = d := by
  interval_cases d <;> decide

theorem natDigitsLEFuel_irrel : ∀ (f1 f2 n : Nat), n ≤ f1 → n ≤ f2 →
    natDigitsLEFuel f1 n = natDigitsLEFuel f2 n := by
  intro f1
  induction f1 with
  | zero =>
    intro f2 n h1 _
    have hn : n = 0 := by omega
    subst hn
    cases f2 <;> rfl
  | succ a ih =>
    intro f2 n h1 h2
    by_cases h : n < 10
    · cases f2 with
      | zero =>
        have hn : n = 0 := by omega
        subst hn
        rfl
      | succ b => rw [natDigitsLEFuel, natDigitsLEFuel, if_pos h, if_pos h]
    · cases f2 with
      | zero => omega
      | succ b =>
        rw [natDigitsLEFuel, natDigitsLEFuel, if_neg h, if_neg h]
        have hdiv : n / 10 ≤ a := by
          have := Nat.div_lt_self (show 0 < n by omega) (show 1 < 10 by omega)
          omega
        have hdiv2 : n / 10 ≤ b := by
          have := Nat.div_lt_self (show 0 < n by omega) (show 1 < 10 by omega)
          omega
        rw [ih b (n / 10) hdiv hdiv2]

theorem natDigitsLE_eq (n : Nat) :
    natDigitsLE n = if n < 10 then [Nat.digitChar n]
      else Nat.digitChar (n % 10) :: natDigitsLE (n / 10) := by
  by_cases h : n < 10
  · rw [if_pos h]
    cases n with
    | zero => rfl
    | succ m => rw [natDigitsLE, natDigitsLEFuel, if_pos h]
  · rw [if_neg h]
    cases n with
    | zero => omega
    | succ m =>
      rw [natDigitsLE, natDigitsLEFuel, if_neg h]
      have hdiv : (m + 1) / 10 ≤ m := by
        have := Nat.div_lt_self (show 0 < m + 1 by omega) (show 1 < 10 by omega)
        omega
      rw [natDigitsLEFuel_irrel m ((m + 1) / 10) ((m + 1) / 10) hdiv (le_refl _)]
      rfl

theorem natDigitsLE_ne_nil (n : Nat) : natDigitsLE n ≠ [] := by
  rw [natDigitsLE_eq]
  by_cases h : n < 10 <;> simp [h]

theorem natDigitsLE_digits : ∀ (n : Nat), ∀ c ∈ natDigitsLE n, c.isDigit = true := by
  intro n
  induction n using Nat.strong_induction_on with
  | _ n ih =>
    intro c hc
    rw [natDigitsLE_eq] at hc
    by_cases h : n < 10
    · rw [if_pos h] at hc
      rcases List.mem_cons.mp hc with hc | hc
      · rw [hc]
        exact digitChar_isDigit h
      · simp at hc
    · rw [if_neg h] at hc
      rcases List.mem_cons.mp hc with hc | hc
      · rw [hc]
        exact digitChar_isDigit (Nat.mod_lt n (by omega))
      · exact ih (n / 10) (Nat.div_lt_self (by omega) (by omega)) c hc

theorem foldl_natDigitsLE : ∀ (n acc : Nat),
    List.foldl (fun a c => a * 10 + (c.toNat - 48)) acc (natDigitsLE n).reverse =
      acc * 10 ^ (natDigitsLE n).length + n := by
  intro n
  induction n using Nat.strong_induction_on with
  | _ n ih =>
    intro acc
    rw [natDigitsLE_eq]
    by_cases h : n < 10
    · rw [if_pos h]
      simp only [List.reverse_cons, List.reverse_nil, List.nil_append,
        List.foldl_cons, List.foldl_nil, List.length_cons, List.length_nil]
      rw [digitChar_val h]
      ring
    · rw [if_neg h]
      rw [List.reverse_cons, List.foldl_append, List.foldl_cons, List.foldl_nil]
      rw [ih (n / 10) (Nat.div_lt_self (by omega) (by omega)) acc]
      rw [digitChar_val (Nat.mod_lt n (by omega))]
      rw [List.length_cons, pow_succ]
      calc (acc * 10 ^ (natDigitsLE (n / 10)).length + n / 10) * 10 + n % 10 =
          acc * (10 ^ (natDigitsLE (n / 10)).length * 10) +
            (10 * (n / 10) + n % 10) := by ring
        _ = acc * (10 ^ (natDigitsLE (n / 10)).length * 10) + n := by
            rw [Nat.div_add_mod]

theorem rustParseUsize_natToStr (n : Nat) : rustParseUsize (natToStr n) = some n := by
  have hne : natToStr n ≠ [] := by
    rw [natToStr]
    simpa using natDigitsLE_ne_nil n
  have hdigits : ∀ c ∈ natToStr n, c.isDigit = true := by
    intro c hc
    rw [natToStr, List.mem_reverse] at hc
    exact natDigitsLE_digits n c hc
  have hplus : ¬((natToStr n).head? = some '+') := by
    intro hc
    cases hs : natToStr n with
    | nil => rw [hs] at hc; cases hc
    | cons a t =>
      rw [hs] at hc
      have ha : a = '+' := by
        have : some a = some '+' := hc
        exact Option.some_inj.mp this
      have := hdigits a (by rw [hs]; exact List.mem_cons_self _ _)
      rw [ha] at this
      cases this
  rw [rustParseUsize, if_neg hplus, digitsVal,
    if_pos ⟨hne, List.all_eq_true.mpr (fun c hc => hdigits c hc)⟩]
  rw [show (natToStr n) = (natDigitsLE n).reverse from rfl, foldl_natDigitsLE n 0]
  simp

theorem splitWsAux_word : ∀ (w cur rest : RStr), (∀ c ∈ w, isWS c = false) →
    splitWsAux cur (w ++ rest) = splitWsAux (w.reverse ++ cur) rest := by
  intro w
  induction w with
  | nil =>
    intro cur rest _
    simp
  | cons c w ih =>
    intro cur rest h
    have hc : isWS c = false := h c (List.mem_cons_self _ _)
    rw [List.cons_append, splitWsAux, hc]
    simp only [Bool.false_eq_true, if_false]
    rw [ih (c :: cur) rest (fun d hd => h d (List.mem_cons_of_mem _ hd))]
    rw [List.reverse_cons, List.append_assoc, List.singleton_append]

theorem splitWs_joinSp : ∀ (nicks : List RStr),
    (∀ w ∈ nicks, w ≠ [] ∧ ∀ c ∈ w, isWS c = false) →
    splitWs (joinSp nicks) = nicks := by
  intro nicks
  induction nicks with
  | nil => intro _; rfl
  | cons w ws ih =>
    intro h
    have hw := h w (List.mem_cons_self _ _)
    cases ws with
    | nil =>
      show splitWsAux [] (joinSp [w]) = [w]
      rw [show joinSp [w] = w from rfl, show w = w ++ [] from (List.append_nil w).symm,
        splitWsAux_word w [] [] hw.2]
      rw [List.append_nil, List.append_nil, splitWsAux]
      have : ¬(w.reverse = []) := by
        simpa using hw.1
      rw [if_neg this, List.reverse_reverse]
    | cons w2 ws2 =>
      show splitWsAux [] (joinSp (w :: w2 :: ws2)) = w :: w2 :: ws2
      rw [show joinSp (w :: w2 :: ws2) = w ++ ' ' :: joinSp (w2 :: ws2) from rfl]
      rw [splitWsAux_word w [] (' ' :: joinSp (w2 :: ws2)) hw.2, List.append_nil]
      rw [splitWsAux]
      rw [show isWS ' ' = true from rfl]
      simp only [if_true]
      have hwr : ¬(w.reverse = []) := by
        simpa using hw.1
      rw [if_neg hwr, List.reverse_reverse]
      have := ih (fun u hu => h u (List.mem_cons_of_mem _ hu))
      rw [show splitWsAux [] (joinSp (w2 :: ws2)) = splitWs (joinSp (w2 :: ws2)) from rfl,
        this]

theorem joinSp_getLast_not_ws : ∀ (nicks : List RStr), nicks ≠ [] →
    (∀ w ∈ nicks, w ≠ [] ∧ ∀ c ∈ w, isWS c = false) →
    ∃ c, (joinSp nicks).getLast? = some c ∧ isWS c = false := by
  intro nicks
  induction nicks with
  | nil => intro h; cases h rfl
  | cons w ws ih =>
    intro _ h
    have hw := h w (List.mem_cons_self _ _)
    cases ws with
    | nil =>
      refine ⟨w.getLast hw.1, ?_, ?_⟩
      · exact List.getLast?_eq_getLast_of_ne_nil hw.1
      · exact hw.2 _ (List.getLast_mem hw.1)
    | cons w2 ws2 =>
      obtain ⟨c, hc1, hc2⟩ := ih (by simp) (fun u hu => h u (List.mem_cons_of_mem _ hu))
      refine ⟨c, ?_, hc2⟩
      rw [show joinSp (w :: w2 :: ws2) = w ++ ' ' :: joinSp (w2 :: ws2) from rfl]
      rw [List.getLast?_append_cons]
      have hne : joinSp (w2 :: ws2) ≠ [] := by
        intro hc
        rw [hc] at hc1
        cases hc1
      rw [show (' ' :: joinSp (w2 :: ws2)) = [' '] ++ joinSp (w2 :: ws2) from rfl,
        List.getLast?_append_of_ne_nil _ hne]
      exact hc1

/-- No embedded carriage return or line feed. -/
def noCRorLF (s : RStr) : Prop := ∀ c ∈ s, ¬(c = '\r' ∨ c = '\n')

/-- The claim's hypotheses on a representable `ServerMsg`: fields survive
trimming, are non-empty where the parser requires it, contain no CR/LF,
nicks contain no space, the WHO count is consistent and the WHO nicks are
non-empty and whitespace-free. -/
def wellFormedServer : ServerMsg → Prop
  | ServerMsg.sys text => trimStr text = text ∧ noCRorLF text
  | ServerMsg.msg nick text => nick ≠ [] ∧ ' ' ∉ nick ∧ trimStr nick = nick ∧
      noCRorLF nick ∧ text ≠ [] ∧ trimStr text = text ∧ noCRorLF text
  | ServerMsg.hist nick text => nick ≠ [] ∧ ' ' ∉ nick ∧ trimStr nick = nick ∧
      noCRorLF nick ∧ text ≠ [] ∧ trimStr text = text ∧ noCRorLF text
  | ServerMsg.prompt id text => id ≠ [] ∧ ' ' ∉ id ∧ trimStr id = id ∧
      noCRorLF id ∧ text ≠ [] ∧ trimStr text = text ∧ noCRorLF text
  | ServerMsg.who count nicks => count = nicks.length ∧
      ∀ w ∈ nicks, w ≠ [] ∧ ∀ c ∈ w, isWS c = false

theorem space_not_mem_natToStr (n : Nat) : ' ' ∉ natToStr n := by
  intro hm
  rw [natToStr, List.mem_reverse] at hm
  have h : (' ' : Char).isDigit = true := natDigitsLE_digits n ' ' hm
  cases h

/-- C8 (amended): for every representable `ServerMsg` whose fields
survive trimming (non-empty where required, no embedded CR/LF, nick
without spaces, WHO count consistent and nicks whitespace-free) and whose
formatted line is at most 1024 bytes, parsing the formatted line returns
the original message. -/
theorem server_roundtrip (m : ServerMsg) (hw : wellFormedServer m)
    (hlen : utf8Len (formatServerMsg m) ≤ MAX_LINE) :
    parseServerLine (formatServerMsg m) = RRes.ret (Except.ok m) := by
  cases m with
  | sys text =>
    obtain ⟨htr, _⟩ := hw
    by_cases hte : text = []
    · subst hte
      decide
    · have hfacts := trimStr_eq_self_facts htr
      have hline : formatServerMsg (ServerMsg.sys text) = "SYS".data ++ ' ' :: text := rfl
      have hclean : cleanLine (formatServerMsg (ServerMsg.sys text)) =
          RRes.ret (some (formatServerMsg (ServerMsg.sys text))) := by
        apply cleanLine_eq_self
        · rw [hline]; simp
        · exact hlen
        · intro c hc
          rw [hline] at hc
          have hS : ("SYS".data ++ ' ' :: text).head? = some 'S' := rfl
          rw [hS] at hc
          rw [(Option.some_inj.mp hc).symm]
          decide
        · intro c hc
          rw [hline, List.getLast?_append_of_ne_nil _
            (by simp : (' ' :: text) ≠ [])] at hc
          rw [show (' ' :: text) = [' '] ++ text from rfl,
            List.getLast?_append_of_ne_nil _ hte] at hc
          exact hfacts.2 c hc
      have hsf : splitFirst (formatServerMsg (ServerMsg.sys text)) =
          ("SYS".data, some text) := by
        rw [hline]
        exact splitFirst_append _ _ (by decide)
      rw [parseServerLine, hclean]
      simp only [hsf]
      rfl
  | msg nick text =>
    obtain ⟨hn1, hn2, _, _, ht1, ht2, _⟩ := hw
    have hfacts := trimStr_eq_self_facts ht2
    have hline : formatServerMsg (ServerMsg.msg nick text) =
        "MSG".data ++ ' ' :: (nick ++ ' ' :: text) := rfl
    have hclean : cleanLine (formatServerMsg (ServerMsg.msg nick text)) =
        RRes.ret (some (formatServerMsg (ServerMsg.msg nick text))) := by
      apply cleanLine_eq_self
      · rw [hline]; simp
      · exact hlen
      · intro c hc
        rw [hline] at hc
        have hM : ("MSG".data ++ ' ' :: (nick ++ ' ' :: text)).head? = some 'M' := rfl
        rw [hM] at hc
        rw [(Option.some_inj.mp hc).symm]
        decide
      · intro c hc
        rw [hline, List.getLast?_append_of_ne_nil _
          (by simp : (' ' :: (nick ++ ' ' :: text)) ≠ [])] at hc
        rw [show (' ' :: (nick ++ ' ' :: text)) = [' '] ++ (nick ++ ' ' :: text)
          from rfl, List.getLast?_append_of_ne_nil _ (by simp),
          List.getLast?_append_cons,
          show (' ' :: text) = [' '] ++ text from rfl,
          List.getLast?_append_of_ne_nil _ ht1] at hc
        exact hfacts.2 c hc
    have hsf : splitFirst (formatServerMsg (ServerMsg.msg nick text)) =
        ("MSG".data, some (nick ++ ' ' :: text)) := by
      rw [hline]
      exact splitFirst_append _ _ (by decide)
    have hsf2 : splitFirst (nick ++ ' ' :: text) = (nick, some text) :=
      splitFirst_append _ _ hn2
    rw [parseServerLine, hclean]
    simp only [hsf, hsf2, Option.getD_some]
    rw [if_neg (by decide : ¬(upperStr "MSG".data = "SYS".data)),
      if_pos (by decide : upperStr "MSG".data = "MSG".data)]
    rw [if_neg (by simp [hn1, ht1] : ¬(nick = [] ∨ text = []))]
  | hist nick text =>
    obtain ⟨hn1, hn2, _, _, ht1, ht2, _⟩ := hw
    have hfacts := trimStr_eq_self_facts ht2
    have hline : formatServerMsg (ServerMsg.hist nick text) =
        "HIST".data ++ ' ' :: (nick ++ ' ' :: text) := rfl
    have hclean : cleanLine (formatServerMsg (ServerMsg.hist nick text)) =
        RRes.ret (some (formatServerMsg (ServerMsg.hist nick text))) := by
      apply cleanLine_eq_self
      · rw [hline]; simp
      · exact hlen
      · intro c hc
        rw [hline] at hc
        have hH : ("HIST".data ++ ' ' :: (nick ++ ' ' :: text)).head? = some 'H' := rfl
        rw [hH] at hc
        rw [(Option.some_inj.mp hc).symm]
        decide
      · intro c hc
        rw [hline, List.getLast?_append_of_ne_nil _
          (by simp : (' ' :: (nick ++ ' ' :: text)) ≠ [])] at hc
        rw [show (' ' :: (nick ++ ' ' :: text)) = [' '] ++ (nick ++ ' ' :: text)
          from rfl, List.getLast?_append_of_ne_nil _ (by simp),
          List.getLast?_append_cons,
          show (' ' :: text) = [' '] ++ text from rfl,
          List.getLast?_append_of_ne_nil _ ht1] at hc
        exact hfacts.2 c hc
    have hsf : splitFirst (formatServerMsg (ServerMsg.hist nick text)) =
        ("HIST".data, some (nick ++ ' ' :: text)) := by
      rw [hline]
      exact splitFirst_append _ _ (by decide)
    have hsf2 : splitFirst (nick ++ ' ' :: text) = (nick, some text) :=
      splitFirst_append _ _ hn2
    rw [parseServerLine, hclean]
    simp only [hsf, hsf2, Option.getD_some]
    rw [if_neg (by decide : ¬(upperStr "HIST".data = "SYS".data)),
      if_neg (by decide : ¬(upperStr "HIST".data = "MSG".data)),
      if_pos (by decide : upperStr "HIST".data = "HIST".data)]
    rw [if_neg (by simp [hn1, ht1] : ¬(nick = [] ∨ text = []))]
  | prompt id text =>
    obtain ⟨hn1, hn2, _, _, ht1, ht2, _⟩ := hw
    have hfacts := trimStr_eq_self_facts ht2
    have hline : formatServerMsg (ServerMsg.prompt id text) =
        "PROMPT".data ++ ' ' :: (id ++ ' ' :: text) := rfl
    have hclean : cleanLine (formatServerMsg (ServerMsg.prompt id text)) =
        RRes.ret (some (formatServerMsg (ServerMsg.prompt id text))) := by
      apply cleanLine_eq_self
      · rw [hline]; simp
      · exact hlen
      · intro c hc
        rw [hline] at hc
        have hP : ("PROMPT".data ++ ' ' :: (id ++ ' ' :: text)).head? = some 'P' := rfl
        rw [hP] at hc
        rw [(Option.some_inj.mp hc).symm]
        decide
      · intro c hc
        rw [hline, List.getLast?_append_of_ne_nil _
          (by simp : (' ' :: (id ++ ' ' :: text)) ≠ [])] at hc
        rw [show (' ' :: (id ++ ' ' :: text)) = [' '] ++ (id ++ ' ' :: text)
          from rfl, List.getLast?_append_of_ne_nil _ (by simp),
          List.getLast?_append_cons,
          show (' ' :: text) = [' '] ++ text from rfl,
          List.getLast?_append_of_ne_nil _ ht1] at hc
        exact hfacts.2 c hc
    have hsf : splitFirst (formatServerMsg (ServerMsg.prompt id text)) =
        ("PROMPT".data, some (id ++ ' ' :: text)) := by
      rw [hline]
      exact splitFirst_append _ _ (by decide)
    have hsf2 : splitFirst (id ++ ' ' :: text) = (id, some text) :=
      splitFirst_append _ _ hn2
    rw [parseServerLine, hclean]
    simp only [hsf, hsf2, Option.getD_some]
    rw [if_neg (by decide : ¬(upperStr "PROMPT".data = "SYS".data)),
      if_neg (by decide : ¬(upperStr "PROMPT".data = "MSG".data)),
      if_neg (by decide : ¬(upperStr "PROMPT".data = "HIST".data)),
      if_neg (by decide : ¬(upperStr "PROMPT".data = "WHO".data)),
      if_pos (by decide : upperStr "PROMPT".data = "PROMPT".data)]
    rw [if_neg (by simp [hn1, ht1] : ¬(id = [] ∨ text = []))]
  | who count nicks =>
    obtain ⟨hcount, hnicks⟩ := hw
    cases nicks with
    | nil =>
      rw [show count = 0 from by simpa using hcount]
      decide
    | cons w ws =>
      have hjoin := joinSp_getLast_not_ws (w :: ws) (by simp) hnicks
      have hline : formatServerMsg (ServerMsg.who count (w :: ws)) =
          "WHO".data ++ ' ' :: (natToStr count ++ ' ' :: joinSp (w :: ws)) := rfl
      have hclean : cleanLine (formatServerMsg (ServerMsg.who count (w :: ws))) =
          RRes.ret (some (formatServerMsg (ServerMsg.who count (w :: ws)))) := by
        apply cleanLine_eq_self
        · rw [hline]; simp
        · exact hlen
        · intro c hc
          rw [hline] at hc
          have hWc : ("WHO".data ++ ' ' ::
              (natToStr count ++ ' ' :: joinSp (w :: ws))).head? = some 'W' := rfl
          rw [hWc] at hc
          rw [(Option.some_inj.mp hc).symm]
          decide
        · intro c hc
          obtain ⟨d, hd1, hd2⟩ := hjoin
          rw [hline, List.getLast?_append_of_ne_nil _
            (by simp : (' ' :: (natToStr count ++ ' ' :: joinSp (w :: ws))) ≠ [])] at hc
          rw [show (' ' :: (natToStr count ++ ' ' :: joinSp (w :: ws))) =
            [' '] ++ (natToStr count ++ ' ' :: joinSp (w :: ws)) from rfl,
            List.getLast?_append_of_ne_nil _ (by simp),
            List.getLast?_append_cons,
            show (' ' :: joinSp (w :: ws)) = [' '] ++ joinSp (w :: ws) from rfl,
            List.getLast?_append_of_ne_nil _ (by
              intro hjn
              rw [hjn] at hd1
              cases hd1), hd1] at hc
          rw [(Option.some_inj.mp hc).symm]
          exact hd2
      have hsf : splitFirst (formatServerMsg (ServerMsg.who count (w :: ws))) =
          ("WHO".data, some (natToStr count ++ ' ' :: joinSp (w :: ws))) := by
        rw [hline]
        exact splitFirst_append _ _ (by decide)
      have hsf2 : splitFirst (natToStr count ++ ' ' :: joinSp (w :: ws)) =
          (natToStr count, some (joinSp (w :: ws))) :=
        splitFirst_append _ _ (space_not_mem_natToStr count)
      rw [parseServerLine, hclean]
      simp only [hsf, hsf2, Option.getD_some]
      rw [if_neg (by decide : ¬(upperStr "WHO".data = "SYS".data)),
        if_neg (by decide : ¬(upperStr "WHO".data = "MSG".data)),
        if_neg (by decide : ¬(upperStr "WHO".data = "HIST".data)),
        if_pos (by decide : upperStr "WHO".data = "WHO".data)]
      rw [rustParseUsize_natToStr, splitWs_joinSp (w :: ws) hnicks]
      rfl

instance (s : RStr) : Decidable (noCRorLF s) :=
  List.decidableBAll _ s

instance (m : ServerMsg) : Decidable (wellFormedServer m) := by
  cases m <;> unfold wellFormedServer <;> infer_instance

set_option maxRecDepth 8000 in
/-- C8 counterexample to the claim as stated: a `SYS` message whose text
is 256 four-byte characters satisfies every hypothesis the claim lists
(fields survive trimming, no CR/LF), yet its 1028-byte formatted line is
truncated by `clean_line` to 1024 bytes, so parsing returns a different
message. -/
theorem server_roundtrip_cex :
    wellFormedServer (ServerMsg.sys (List.replicate 256 '𝄞')) ∧
    parseServerLine (formatServerMsg (ServerMsg.sys (List.replicate 256 '𝄞'))) ≠
      RRes.ret (Except.ok (ServerMsg.sys (List.replicate 256 '𝄞'))) := by
  refine ⟨⟨by decide, by decide⟩, by decide⟩

/-- C8 witness: `MSG bob hi there` round-trips. -/
theorem server_roundtrip_witness :
    wellFormedServer (ServerMsg.msg "bob".data "hi there".data) ∧
    utf8Len (formatServerMsg (ServerMsg.msg "bob".data "hi there".data)) ≤ MAX_LINE ∧
    parseServerLine (formatServerMsg (ServerMsg.msg "bob".data "hi there".data)) =
      RRes.ret (Except.ok (ServerMsg.msg "bob".data "hi there".data)) := by
  refine ⟨by decide, by decide, ?_⟩
  exact server_roundtrip _ (by decide) (by decide)
